import Mathlib

/-!
Verification of the ContextBench context-retrieval evaluation engine.

This file gives a shallow embedding, in Lean 4, of the parts of the
`contextbench` Python package that the verified properties are about:

* `contextbench/metrics/compute.py` — interval algebra on line intervals,
  `coverage_precision`, `compute_granularity_metrics`,
  `compute_trajectory_metrics`;
* `contextbench/evaluate.py` — the path resolver
  (`_is_repo_file` / `_resolve_repo_relpath`), the per-instance EditLoc
  block of `evaluate_instance`, and `aggregate_results`;
* `contextbench/extractors/treesitter.py` — `extract_def_set_in_spans`;
* `contextbench/parsers/trajectory.py` — `parse_trajectory`.

Modelling conventions:

* Python `int` is modelled by `ℤ`, Python `float` results of metric
  divisions by `ℚ` (every division the metrics perform is of integer
  counts, and every property proved is at the level of the exact
  rational value).
* Python `dict` values built by insertion are modelled by association
  lists (`List (String × α)`) with the same insertion-order semantics;
  iteration over a Python `set` of keys (whose order is irrelevant
  because the results are sums) is modelled by a deduplicated key list.
* Functions of the repository that live in modules absent from the
  source tree (`contextbench/core/intervals.py`, `contextbench/core/fileio.py`,
  `contextbench/parsers/diff.py`) are modelled from the spec and carry a
  doc comment starting with `Modelled from the spec:`.
* External effects (the tree-sitter parse of a file, file existence on
  disk, the line-to-byte conversion reading file contents) are
  parameters of the embedded functions.
-/

/-- Ivl: a closed line or byte interval, `(start, end)`, both endpoints included. -/
abbrev Ivl := ℤ × ℤ

/-- Lexicographic order on pairs: this is the order `sorted()` uses on Python
2-tuples of ints. -/
def lexLe (p q : Ivl) : Prop :=
  p.1 < q.1 ∨ (p.1 = q.1 ∧ p.2 ≤ q.2)

instance lexLe.instDecidableRel : DecidableRel lexLe :=
  fun p q => inferInstanceAs (Decidable (p.1 < q.1 ∨ (p.1 = q.1 ∧ p.2 ≤ q.2)))

instance lexLe.instIsTotal : IsTotal Ivl lexLe :=
  ⟨fun a b => by unfold lexLe; omega⟩

instance lexLe.instIsTrans : IsTrans Ivl lexLe :=
  ⟨fun a b c hab hbc => by unfold lexLe at *; omega⟩

instance lexLe.instIsAntisymm : IsAntisymm Ivl lexLe :=
  ⟨fun a b hab hba => by
    unfold lexLe at *
    have h1 : a.1 = b.1 := by omega
    have h2 : a.2 = b.2 := by omega
    exact Prod.ext h1 h2⟩

/-- Python `sorted(intervals)`. `lexLe` is a total antisymmetric transitive
order, so the sorted permutation of a list is unique and insertion sort
models `sorted` exactly. -/
def pySort (l : List Ivl) : List Ivl :=
  List.insertionSort lexLe l

/-- The merge loop shared by `_merge_line_intervals` (`slack = 1`, coalescing
adjacent intervals) and the byte-interval `merge` (`slack = 0`, coalescing
only on true overlap).  `last` is the mutable `merged[-1]` of the Python
loop; a new interval `c` is folded into it when `c[0] <= last[1] + slack`,
widening the end to `max last[1] c[1]`, and otherwise `last` is frozen and
`c` starts a new group. -/
def mergeFold (slack : ℤ) (last : Ivl) : List Ivl → List Ivl
  | [] => [last]
  | c :: rest =>
    if c.1 ≤ last.2 + slack then mergeFold slack (last.1, max last.2 c.2) rest
    else last :: mergeFold slack c rest

/-- Sort, then run the merge loop. -/
def mergeAdj (slack : ℤ) (l : List Ivl) : List Ivl :=
  match pySort l with
  | [] => []
  | x :: rest => mergeFold slack x rest

/-- `_merge_line_intervals` from `contextbench/metrics/compute.py`: merge
overlapping or adjacent line intervals (`current[0] <= last[1] + 1`). -/
def _merge_line_intervals (intervals : List Ivl) : List Ivl :=
  mergeAdj 1 intervals

/-- `_line_interval_length` from `contextbench/metrics/compute.py`: total
lines covered, computed as `sum(end - start + 1)` over the merged list. -/
def _line_interval_length (intervals : List Ivl) : ℤ :=
  ((_merge_line_intervals intervals).map (fun p => p.2 - p.1 + 1)).sum

/-- Two-pointer intersection walk of `_line_interval_intersect` from
`contextbench/metrics/compute.py`, written with explicit fuel (one unit per
loop iteration; each iteration advances at least one of the two pointers,
so `length a + length b` units always suffice). -/
def interFold : ℕ → List Ivl → List Ivl → List Ivl
  | 0, _, _ => []
  | _ + 1, [], _ => []
  | _ + 1, _ :: _, [] => []
  | fuel + 1, x :: xs, y :: ys =>
    let lo := max x.1 y.1
    let hi := min x.2 y.2
    let rest :=
      if x.2 < y.2 then interFold fuel xs (y :: ys)
      else if y.2 < x.2 then interFold fuel (x :: xs) ys
      else interFold fuel xs ys
    if lo ≤ hi then (lo, hi) :: rest else rest

/-- `_line_interval_intersect` from `contextbench/metrics/compute.py`. -/
def _line_interval_intersect (a b : List Ivl) : List Ivl :=
  let am := _merge_line_intervals a
  let bm := _merge_line_intervals b
  interFold (am.length + bm.length) am bm

/-- `_line_interval_intersect_size` from `contextbench/metrics/compute.py`. -/
def _line_interval_intersect_size (a b : List Ivl) : ℤ :=
  _line_interval_length (_line_interval_intersect a b)

/-- Modelled from the spec: `merge` of `contextbench/core/intervals.py` is
not in the source tree.  Per spec §4.5, byte intervals are closed 0-indexed
`[start, end]` spans and merge only on true overlap (no adjacency slack). -/
def Core.merge (l : List Ivl) : List Ivl :=
  mergeAdj 0 l

/-- Modelled from the spec: `length` of `contextbench/core/intervals.py` is
not in the source tree.  Total bytes covered by a list of closed byte
intervals, by analogy with `_line_interval_length`. -/
def Core.length (l : List Ivl) : ℤ :=
  ((Core.merge l).map (fun p => p.2 - p.1 + 1)).sum

/-- Modelled from the spec: `intersect` of `contextbench/core/intervals.py`
is not in the source tree.  Same two-pointer walk as
`_line_interval_intersect`, over byte merge. -/
def Core.intersect (a b : List Ivl) : List Ivl :=
  let am := Core.merge a
  let bm := Core.merge b
  interFold (am.length + bm.length) am bm

/-- Modelled from the spec: `intersect_size` of
`contextbench/core/intervals.py` is not in the source tree. -/
def Core.intersect_size (a b : List Ivl) : ℤ :=
  Core.length (Core.intersect a b)

/-- `coverage_precision` from `contextbench/metrics/compute.py`:
`cov = inter / gold if gold > 0 else 1.0`,
`prec = inter / pred if pred > 0 else 1.0`. -/
def coverage_precision (pred_size gold_size inter_size : ℚ) : ℚ × ℚ :=
  (if gold_size > 0 then inter_size / gold_size else 1,
   if pred_size > 0 then inter_size / pred_size else 1)

/-- C1: for every argument triple, `coverage_precision` returns coverage
`inter/gold` when `gold > 0` and `1.0` when `gold = 0`, and precision
`inter/pred` when `pred > 0` and `1.0` when `pred = 0`; in particular
`coverage_precision 0 0 0 = (1, 1)`, `coverage_precision 5 0 0 = (1, 0)`
and `coverage_precision 0 5 0 = (0, 1)`. -/
theorem C1_coverage_precision (pred_size gold_size inter_size : ℚ) :
    (0 < gold_size → (coverage_precision pred_size gold_size inter_size).1 =
      inter_size / gold_size) ∧
    (gold_size = 0 → (coverage_precision pred_size gold_size inter_size).1 = 1) ∧
    (0 < pred_size → (coverage_precision pred_size gold_size inter_size).2 =
      inter_size / pred_size) ∧
    (pred_size = 0 → (coverage_precision pred_size gold_size inter_size).2 = 1) ∧
    coverage_precision 0 0 0 = (1, 1) ∧
    coverage_precision 5 0 0 = (1, 0) ∧
    coverage_precision 0 5 0 = (0, 1) := by
  refine ⟨fun hg => ?_, fun hg => ?_, fun hp => ?_, fun hp => ?_, ?_, ?_, ?_⟩
  · simp [coverage_precision, hg]
  · simp [coverage_precision, hg]
  · simp [coverage_precision, hp]
  · simp [coverage_precision, hp]
  · simp [coverage_precision]
  · norm_num [coverage_precision]
  · norm_num [coverage_precision]

/-- C1 witness: the theorem applied at `pred = 2`, `gold = 4`, `inter = 1`,
discharging the positivity hypotheses there. -/
theorem C1_coverage_precision_witness :
    (coverage_precision 2 4 1).1 = 1 / 4 ∧ (coverage_precision 2 4 1).2 = 1 / 2 :=
  ⟨((C1_coverage_precision 2 4 1).1 (by norm_num)).trans (by norm_num),
   ((C1_coverage_precision 2 4 1).2.2.1 (by norm_num)).trans (by norm_num)⟩

/-- SpanMap models a Python `dict` mapping file path to interval list, as an
insertion-ordered association list. -/
abbrev SpanMap := List (String × List Ivl)

/-- Python `m.get(k, [])`. -/
def alistGet {α : Type} (m : List (String × List α)) (k : String) : List α :=
  (m.lookup k).getD []

/-- Keys of an association list, in insertion order. -/
def keysOf {α : Type} (m : List (String × α)) : List String :=
  m.map Prod.fst

/-- Python `m.setdefault(k, []).append(v)`: extend the entry of `k` in place
if present, otherwise append a new singleton entry at the end. -/
def alistAppend {α : Type} (m : List (String × List α)) (k : String) (v : α) :
    List (String × List α) :=
  match m with
  | [] => [(k, [v])]
  | (k2, vs) :: rest =>
    if k2 = k then (k2, vs ++ [v]) :: rest else (k2, vs) :: alistAppend rest k v

/-- Python `m[k] = v`: overwrite in place if `k` is present, else append a new
entry at the end. -/
def alistSet {α : Type} (m : List (String × α)) (k : String) (v : α) :
    List (String × α) :=
  match m with
  | [] => [(k, v)]
  | (k2, v2) :: rest =>
    if k2 = k then (k2, v) :: rest else (k2, v2) :: alistSet rest k v

/-- `span_total_bytes` from `contextbench/metrics/compute.py`. -/
def span_total_bytes (m : SpanMap) : ℤ :=
  (m.map (fun e => Core.length e.2)).sum

/-- `span_intersection_bytes` from `contextbench/metrics/compute.py`: sum of
per-file intersections over the union of the two key sets (a Python `set`,
modelled by a deduplicated key list; the sum does not depend on the order). -/
def span_intersection_bytes (a b : SpanMap) : ℤ :=
  ((keysOf a ++ keysOf b).dedup).foldl
    (fun t f => t + Core.intersect_size (alistGet a f) (alistGet b f)) 0

/-- `line_total_lines` from `contextbench/metrics/compute.py`. -/
def line_total_lines (m : SpanMap) : ℤ :=
  (m.map (fun e => _line_interval_length e.2)).sum

/-- `line_intersection_lines` from `contextbench/metrics/compute.py`. -/
def line_intersection_lines (a b : SpanMap) : ℤ :=
  ((keysOf a ++ keysOf b).dedup).foldl
    (fun t f => t + _line_interval_intersect_size (alistGet a f) (alistGet b f)) 0

/-- Definition record `(file, kind, start_byte, end_byte)` as produced by the
symbol extractor. -/
abbrev DefRec := String × String × ℤ × ℤ

/-- One granularity entry of the `compute_granularity_metrics` result dict. -/
structure GranMetrics where
  coverage : ℚ
  precision : ℚ
  intersection : ℤ
  gold_size : ℤ
  pred_size : ℤ
deriving DecidableEq

/-- The four-granularity result dict of `compute_granularity_metrics`. -/
structure AllGran where
  file : GranMetrics
  symbol : GranMetrics
  span : GranMetrics
  line : GranMetrics
deriving DecidableEq

/-- `compute_granularity_metrics` from `contextbench/metrics/compute.py`.
`pred_lines` and `gold_lines` default to `None` in Python, modelled as
`Option`. -/
def compute_granularity_metrics (pred_files : Finset String) (pred_defs : Finset DefRec)
    (pred_spans : SpanMap) (gold_files : Finset String) (gold_defs : Finset DefRec)
    (gold_spans : SpanMap) (pred_lines : Option SpanMap) (gold_lines : Option SpanMap) :
    AllGran :=
  let file_inter : ℤ := (pred_files ∩ gold_files).card
  let fileCP := coverage_precision (pred_files.card : ℚ) (gold_files.card : ℚ) (file_inter : ℚ)
  let def_inter : ℤ := (pred_defs ∩ gold_defs).card
  let defCP := coverage_precision (pred_defs.card : ℚ) (gold_defs.card : ℚ) (def_inter : ℚ)
  let span_pred := span_total_bytes pred_spans
  let span_gold := span_total_bytes gold_spans
  let span_inter := span_intersection_bytes pred_spans gold_spans
  let spanCP := coverage_precision (span_pred : ℚ) (span_gold : ℚ) (span_inter : ℚ)
  let lineRes : ℤ × ℤ × ℤ × ℚ × ℚ :=
    match pred_lines, gold_lines with
    | some pl, some gl =>
      let line_pred := line_total_lines pl
      let line_gold := line_total_lines gl
      let line_inter := line_intersection_lines pl gl
      let lineCP := coverage_precision (line_pred : ℚ) (line_gold : ℚ) (line_inter : ℚ)
      (line_pred, line_gold, line_inter, lineCP.1, lineCP.2)
    | _, _ => (0, 0, 0, 0, 0)
  { file := ⟨fileCP.1, fileCP.2, file_inter, (gold_files.card : ℤ), (pred_files.card : ℤ)⟩
    symbol := ⟨defCP.1, defCP.2, def_inter, (gold_defs.card : ℤ), (pred_defs.card : ℤ)⟩
    span := ⟨spanCP.1, spanCP.2, span_inter, span_gold, span_pred⟩
    line := ⟨lineRes.2.2.2.1, lineRes.2.2.2.2, lineRes.2.2.1, lineRes.2.1, lineRes.1⟩ }

/-- One span record of a `Step`, `{'file': f, 'start_line': s, 'end_line': e}`
(`contextbench/parsers/trajectory.py` always fills all three keys; a falsy
`file` is the empty string). -/
structure SpanRec where
  file : String
  start_line : ℤ
  end_line : ℤ
deriving DecidableEq

/-- The `Step` class of `contextbench/parsers/trajectory.py`. -/
structure Step where
  files : List String
  spans : List SpanRec
  symbols : List (String × List String)
deriving DecidableEq

/-- `_step_to_line_intervals` from `contextbench/metrics/compute.py`: group
the step's spans by file (skipping falsy files and non-positive line
numbers), then merge each file's intervals.  The `repo_dir` argument of the
Python function is unused there and omitted. -/
def _step_to_line_intervals (step : Step) : SpanMap :=
  let result := step.spans.foldl (fun acc sp =>
    if sp.file = "" then acc
    else if 0 < sp.start_line ∧ 0 < sp.end_line then
      alistAppend acc sp.file (sp.start_line, sp.end_line)
    else acc) []
  result.map (fun e => (e.1, _merge_line_intervals e.2))

/-- `_step_to_byte_spans` from `contextbench/metrics/compute.py`.
`line_to_byte` is `contextbench/core/fileio.line_to_byte` (absent from the
source tree), modelled from the spec as an oracle parameter taking the
repo-relative path and the 1-indexed inclusive line range and returning the
byte span of those lines in the checked-out file, or `none`. -/
def _step_to_byte_spans (line_to_byte : String → ℤ → ℤ → Option Ivl) (step : Step) :
    SpanMap :=
  let result := step.spans.foldl (fun acc sp =>
    if sp.file = "" then acc
    else
      match line_to_byte sp.file sp.start_line sp.end_line with
      | some bs => alistAppend acc sp.file bs
      | none => acc) []
  result.map (fun e => (e.1, Core.merge e.2))

/-- Per-granularity rational values (one coverage or one ratio per
granularity). -/
structure GranQ where
  file : ℚ
  symbol : ℚ
  span : ℚ
  line : ℚ
deriving DecidableEq

/-- One entry of the `steps` list of `compute_trajectory_metrics`:
`{"step": t + 1, "coverage": {...}}`. -/
structure StepCov where
  step : ℕ
  coverage : GranQ
deriving DecidableEq

/-- The result dict of `compute_trajectory_metrics`. -/
structure TrajMetrics where
  steps : List StepCov
  auc_coverage : GranQ
  redundancy : GranQ
deriving DecidableEq

/-- The mutable state of the `for t, step in enumerate(steps)` loop of
`compute_trajectory_metrics`. -/
structure TrajState where
  unionFiles : Finset String
  unionSymbols : Finset DefRec
  unionSpans : SpanMap
  unionLines : SpanMap
  sumFiles : ℕ
  sumSymbols : ℕ
  sumSpans : ℤ
  sumLines : ℤ
  perStep : List StepCov

/-- The per-file union updates
`union[f] = merge(union.get(f, []) + ivs)` executed for each entry of the
step's map. -/
def alistMergeUnion (mergeF : List Ivl → List Ivl) (m : SpanMap) (upd : SpanMap) :
    SpanMap :=
  upd.foldl (fun acc e => alistSet acc e.1 (mergeF (alistGet acc e.1 ++ e.2))) m

/-- One iteration of the `compute_trajectory_metrics` loop.
`extract_from_names` and `extract_in_spans` are the two tree-sitter entry
points (`extract_def_set_from_symbol_names` / `extract_def_set_in_spans`
applied to the checked-out repo), passed as oracles because the tree-sitter
parse itself is an external effect. -/
def trajStep (extract_from_names : List (String × List String) → Finset DefRec)
    (extract_in_spans : SpanMap → Finset DefRec)
    (line_to_byte : String → ℤ → ℤ → Option Ivl)
    (gold_files : Finset String) (gold_symbols : Finset DefRec) (gold_spans : SpanMap)
    (gold_lines : SpanMap) (st : TrajState) (step : Step) : TrajState :=
  let step_files : Finset String := step.files.toFinset
  let step_lines := _step_to_line_intervals step
  let step_spans := _step_to_byte_spans line_to_byte step
  let step_symbols :=
    if step.symbols ≠ [] then extract_from_names step.symbols
    else extract_in_spans step_spans
  let unionFiles := st.unionFiles ∪ step_files
  let unionSymbols := st.unionSymbols ∪ step_symbols
  let unionSpans := alistMergeUnion Core.merge st.unionSpans step_spans
  let unionLines := alistMergeUnion _merge_line_intervals st.unionLines step_lines
  let file_cov : ℚ :=
    if gold_files = ∅ then 1
    else ((unionFiles ∩ gold_files).card : ℚ) / (gold_files.card : ℚ)
  let symbol_cov : ℚ :=
    if gold_symbols = ∅ then 1
    else ((unionSymbols ∩ gold_symbols).card : ℚ) / (gold_symbols.card : ℚ)
  let span_inter := span_intersection_bytes unionSpans gold_spans
  let span_gold := span_total_bytes gold_spans
  let span_cov : ℚ := if 0 < span_gold then (span_inter : ℚ) / (span_gold : ℚ) else 1
  let line_cov : ℚ :=
    if gold_lines = [] then 0
    else
      let line_inter := line_intersection_lines unionLines gold_lines
      let line_gold := line_total_lines gold_lines
      if 0 < line_gold then (line_inter : ℚ) / (line_gold : ℚ) else 1
  { unionFiles := unionFiles
    unionSymbols := unionSymbols
    unionSpans := unionSpans
    unionLines := unionLines
    sumFiles := st.sumFiles + step_files.card
    sumSymbols := st.sumSymbols + step_symbols.card
    sumSpans := st.sumSpans + span_total_bytes step_spans
    sumLines := st.sumLines + line_total_lines step_lines
    perStep := st.perStep ++
      [⟨st.perStep.length + 1, ⟨file_cov, symbol_cov, span_cov, line_cov⟩⟩] }

/-- The initial loop state of `compute_trajectory_metrics`. -/
def trajInit : TrajState :=
  ⟨∅, ∅, [], [], 0, 0, 0, 0, []⟩

/-- `compute_trajectory_metrics` from `contextbench/metrics/compute.py`.
`gold_lines_opt` is the Python `gold_lines=None` default (`None` becomes the
empty dict inside the function). -/
def compute_trajectory_metrics (extract_from_names : List (String × List String) → Finset DefRec)
    (extract_in_spans : SpanMap → Finset DefRec)
    (line_to_byte : String → ℤ → ℤ → Option Ivl)
    (steps : List Step) (gold_files : Finset String) (gold_symbols : Finset DefRec)
    (gold_spans : SpanMap) (gold_lines_opt : Option SpanMap) : TrajMetrics :=
  if steps.length = 0 then
    { steps := [], auc_coverage := ⟨0, 0, 0, 0⟩, redundancy := ⟨0, 0, 0, 0⟩ }
  else
    let gold_lines := gold_lines_opt.getD []
    let st := steps.foldl
      (trajStep extract_from_names extract_in_spans line_to_byte
        gold_files gold_symbols gold_spans gold_lines) trajInit
    let T : ℚ := (steps.length : ℚ)
    { steps := st.perStep
      auc_coverage :=
        ⟨(st.perStep.map (fun s => s.coverage.file)).sum / T,
         (st.perStep.map (fun s => s.coverage.symbol)).sum / T,
         (st.perStep.map (fun s => s.coverage.span)).sum / T,
         (st.perStep.map (fun s => s.coverage.line)).sum / T⟩
      redundancy :=
        ⟨if 0 < st.sumFiles then 1 - (st.unionFiles.card : ℚ) / (st.sumFiles : ℚ) else 0,
         if 0 < st.sumSymbols then 1 - (st.unionSymbols.card : ℚ) / (st.sumSymbols : ℚ) else 0,
         if 0 < st.sumSpans then 1 - (span_total_bytes st.unionSpans : ℚ) / (st.sumSpans : ℚ) else 0,
         if 0 < st.sumLines then 1 - (line_total_lines st.unionLines : ℚ) / (st.sumLines : ℚ) else 0⟩ }

/-- Membership semantics of an interval list: `x` lies in some interval. -/
def covers (l : List Ivl) (x : ℤ) : Prop :=
  ∃ p ∈ l, p.1 ≤ x ∧ x ≤ p.2

/-- Every interval of the list is well-formed (`start ≤ end`), the `LineSpan`
/ `ByteSpan` invariant of spec §3. -/
def IvlProper (l : List Ivl) : Prop :=
  ∀ p ∈ l, p.1 ≤ p.2

/-- Gap relation of a merged list: the next interval starts strictly more
than `slack` after the previous one ends, so the merge loop would not have
coalesced them. -/
def gapGt (slack : ℤ) (p q : Ivl) : Prop :=
  p.2 + slack < q.1

theorem lexLe_def {p q : Ivl} : lexLe p q ↔ (p.1 < q.1 ∨ (p.1 = q.1 ∧ p.2 ≤ q.2)) :=
  Iff.rfl

theorem covers_nil (x : ℤ) : ¬ covers [] x := by
  simp [covers]

theorem covers_cons {p : Ivl} {l : List Ivl} {x : ℤ} :
    covers (p :: l) x ↔ (p.1 ≤ x ∧ x ≤ p.2) ∨ covers l x := by
  simp [covers]

theorem sorted_merged_cons {last c : Ivl} {rest : List Ivl}
    (h : List.Sorted lexLe (last :: c :: rest)) :
    List.Sorted lexLe ((last.1, max last.2 c.2) :: rest) := by
  rw [List.sorted_cons] at h ⊢
  obtain ⟨h1, h2⟩ := h
  rw [List.sorted_cons] at h2
  obtain ⟨h3, h4⟩ := h2
  refine ⟨fun b hb => ?_, h4⟩
  have hlc : lexLe last c := h1 c (by simp)
  have hcb : lexLe c b := h3 b hb
  rw [lexLe_def] at hlc hcb ⊢
  simp only
  omega

theorem mergeFold_mem_lexLe {slack : ℤ} {last : Ivl} {l : List Ivl}
    (h : List.Sorted lexLe (last :: l)) :
    ∀ b ∈ mergeFold slack last l, lexLe last b := by
  induction l generalizing last with
  | nil =>
    intro b hb
    simp only [mergeFold, List.mem_singleton] at hb
    subst hb
    rw [lexLe_def]; omega
  | cons c rest ih =>
    intro b hb
    rw [mergeFold] at hb
    by_cases hc : c.1 ≤ last.2 + slack
    · rw [if_pos hc] at hb
      have hs := sorted_merged_cons h
      have := ih hs b hb
      rw [lexLe_def] at this ⊢
      simp only at this
      omega
    · rw [if_neg hc] at hb
      rcases List.mem_cons.mp hb with hb | hb
      · subst hb; rw [lexLe_def]; omega
      · rw [List.sorted_cons] at h
        have hlc : lexLe last c := h.1 c (by simp)
        have hcb := ih h.2 b hb
        rw [lexLe_def] at hlc hcb ⊢
        omega

theorem mergeFold_sorted {slack : ℤ} {last : Ivl} {l : List Ivl}
    (h : List.Sorted lexLe (last :: l)) :
    List.Sorted lexLe (mergeFold slack last l) := by
  induction l generalizing last with
  | nil => simp [mergeFold]
  | cons c rest ih =>
    rw [mergeFold]
    by_cases hc : c.1 ≤ last.2 + slack
    · rw [if_pos hc]
      exact ih (sorted_merged_cons h)
    · rw [if_neg hc]
      rw [List.sorted_cons] at h
      rw [List.sorted_cons]
      refine ⟨fun b hb => ?_, ih h.2⟩
      have hlc : lexLe last c := h.1 c (by simp)
      have hcb := mergeFold_mem_lexLe h.2 b hb
      rw [lexLe_def] at hlc hcb ⊢
      omega

theorem mergeFold_head {slack : ℤ} {last : Ivl} {l : List Ivl} :
    ∃ b2 t, mergeFold slack last l = (last.1, b2) :: t := by
  induction l generalizing last with
  | nil => exact ⟨last.2, [], rfl⟩
  | cons c rest ih =>
    rw [mergeFold]
    by_cases hc : c.1 ≤ last.2 + slack
    · rw [if_pos hc]
      exact ih
    · rw [if_neg hc]
      exact ⟨last.2, mergeFold slack c rest, rfl⟩

theorem mergeFold_chain {slack : ℤ} {last : Ivl} {l : List Ivl} :
    List.Chain' (gapGt slack) (mergeFold slack last l) := by
  induction l generalizing last with
  | nil => simp [mergeFold]
  | cons c rest ih =>
    rw [mergeFold]
    by_cases hc : c.1 ≤ last.2 + slack
    · rw [if_pos hc]
      exact ih
    · rw [if_neg hc]
      obtain ⟨b2, t, ht⟩ := @mergeFold_head slack c rest
      rw [ht]
      refine List.Chain'.cons ?_ (ht ▸ ih)
      unfold gapGt
      simp only
      omega

theorem mergeFold_covers {slack : ℤ} {last : Ivl} {l : List Ivl}
    (hs : slack ≤ 1) (h : List.Sorted lexLe (last :: l)) (x : ℤ) :
    covers (mergeFold slack last l) x ↔ ((last.1 ≤ x ∧ x ≤ last.2) ∨ covers l x) := by
  induction l generalizing last with
  | nil => simp [mergeFold, covers]
  | cons c rest ih =>
    rw [mergeFold]
    by_cases hc : c.1 ≤ last.2 + slack
    · rw [if_pos hc]
      rw [ih (sorted_merged_cons h), covers_cons]
      rw [List.sorted_cons] at h
      have hlc : lexLe last c := h.1 c (by simp)
      rw [lexLe_def] at hlc
      constructor
      · rintro (⟨h1, h2⟩ | h1)
        · simp only at h2
          rcases max_cases last.2 c.2 with ⟨hm, hm2⟩ | ⟨hm, hm2⟩ <;> rw [hm] at h2 <;> omega
        · exact Or.inr (Or.inr h1)
      · rintro (⟨h1, h2⟩ | ⟨h1, h2⟩ | h1)
        · refine Or.inl ⟨h1, ?_⟩
          simp only
          rcases max_cases last.2 c.2 with ⟨hm, hm2⟩ | ⟨hm, hm2⟩ <;> rw [hm] <;> omega
        · refine Or.inl ⟨by omega, ?_⟩
          simp only
          rcases max_cases last.2 c.2 with ⟨hm, hm2⟩ | ⟨hm, hm2⟩ <;> rw [hm] <;> omega
        · exact Or.inr h1
    · rw [if_neg hc]
      rw [covers_cons, ih (List.sorted_cons.mp h).2, covers_cons]

theorem mergeFold_proper {slack : ℤ} {last : Ivl} {l : List Ivl}
    (hlast : last.1 ≤ last.2) (hl : IvlProper l) :
    IvlProper (mergeFold slack last l) := by
  induction l generalizing last with
  | nil =>
    intro p hp
    simp only [mergeFold, List.mem_singleton] at hp
    subst hp; exact hlast
  | cons c rest ih =>
    rw [mergeFold]
    by_cases hc : c.1 ≤ last.2 + slack
    · rw [if_pos hc]
      refine ih ?_ (fun p hp => hl p (by simp [hp]))
      simp only
      omega
    · rw [if_neg hc]
      intro p hp
      rcases List.mem_cons.mp hp with hp | hp
      · subst hp; exact hlast
      · exact ih (hl c (by simp)) (fun q hq => hl q (by simp [hq])) p hp

theorem mergeFold_of_chain {slack : ℤ} {last : Ivl} {l : List Ivl}
    (h : List.Chain' (gapGt slack) (last :: l)) :
    mergeFold slack last l = last :: l := by
  induction l generalizing last with
  | nil => rfl
  | cons c rest ih =>
    rw [mergeFold]
    have hg : gapGt slack last c := (List.chain'_cons.mp h).1
    unfold gapGt at hg
    rw [if_neg (by omega)]
    rw [ih (List.chain'_cons.mp h).2]

theorem pySort_sorted (l : List Ivl) : List.Sorted lexLe (pySort l) :=
  List.sorted_insertionSort lexLe l

theorem pySort_perm (l : List Ivl) : List.Perm (pySort l) l :=
  List.perm_insertionSort lexLe l

theorem covers_perm {a b : List Ivl} (h : List.Perm a b) (x : ℤ) :
    covers a x ↔ covers b x := by
  unfold covers
  constructor
  · rintro ⟨p, hp, h1⟩
    exact ⟨p, h.mem_iff.mp hp, h1⟩
  · rintro ⟨p, hp, h1⟩
    exact ⟨p, h.mem_iff.mpr hp, h1⟩

theorem mergeAdj_sorted (slack : ℤ) (l : List Ivl) :
    List.Sorted lexLe (mergeAdj slack l) := by
  unfold mergeAdj
  rcases hp : pySort l with _ | ⟨x, rest⟩
  · simp
  · exact mergeFold_sorted (hp ▸ pySort_sorted l)

theorem mergeAdj_chain (slack : ℤ) (l : List Ivl) :
    List.Chain' (gapGt slack) (mergeAdj slack l) := by
  unfold mergeAdj
  rcases hp : pySort l with _ | ⟨x, rest⟩
  · simp
  · exact mergeFold_chain

theorem mergeAdj_covers {slack : ℤ} (hs : slack ≤ 1) (l : List Ivl) (x : ℤ) :
    covers (mergeAdj slack l) x ↔ covers l x := by
  unfold mergeAdj
  rcases hp : pySort l with _ | ⟨y, rest⟩
  · have : l = [] := (hp ▸ pySort_perm l).symm.eq_nil
    rw [this]
  · rw [mergeFold_covers hs (hp ▸ pySort_sorted l) x, ← covers_cons, ← hp,
      covers_perm (pySort_perm l)]

theorem mergeAdj_proper {slack : ℤ} {l : List Ivl} (h : IvlProper l) :
    IvlProper (mergeAdj slack l) := by
  unfold mergeAdj
  rcases hp : pySort l with _ | ⟨y, rest⟩
  · intro p hp2; simp at hp2
  · have hall : IvlProper (y :: rest) := by
      intro p hp2
      exact h p ((hp ▸ pySort_perm l).mem_iff.mp hp2)
    exact mergeFold_proper (hall y (by simp)) (fun p hp2 => hall p (by simp [hp2]))

theorem mergeAdj_of_sorted_chain {slack : ℤ} {m : List Ivl}
    (hsort : List.Sorted lexLe m) (hchain : List.Chain' (gapGt slack) m) :
    mergeAdj slack m = m := by
  unfold mergeAdj
  have hps : pySort m = m := hsort.insertionSort_eq
  rw [hps]
  rcases m with _ | ⟨x, rest⟩
  · rfl
  · exact mergeFold_of_chain hchain

theorem mergeAdj_idem (slack : ℤ) (l : List Ivl) :
    mergeAdj slack (mergeAdj slack l) = mergeAdj slack l :=
  mergeAdj_of_sorted_chain (mergeAdj_sorted slack l) (mergeAdj_chain slack l)

/-- C7: `_merge_line_intervals` coalesces overlapping or adjacent intervals
(merging whenever the next start is at most the previous end plus one) into
a sorted list whose consecutive intervals are separated by a gap of more
than one line, it covers exactly the same set of lines as its input, and it
is idempotent: `merge (merge x) = merge x` for every list of line
intervals.  By contrast the byte-interval merge coalesces only on true
overlap: `[(0,5), (6,10)]` stays split at the byte granularity but fuses at
the line granularity. -/
theorem C7_merge_idempotent (x : List Ivl) :
    _merge_line_intervals (_merge_line_intervals x) = _merge_line_intervals x ∧
    List.Sorted lexLe (_merge_line_intervals x) ∧
    List.Chain' (fun p q => p.2 + 1 < q.1) (_merge_line_intervals x) ∧
    (∀ t : ℤ, covers (_merge_line_intervals x) t ↔ covers x t) ∧
    Core.merge [(0, 5), (6, 10)] = [(0, 5), (6, 10)] ∧
    _merge_line_intervals [(0, 5), (6, 10)] = [(0, 10)] := by
  refine ⟨mergeAdj_idem 1 x, mergeAdj_sorted 1 x, mergeAdj_chain 1 x,
    fun t => mergeAdj_covers (by norm_num) x t, by decide, by decide⟩

/-- The finite set of integer points covered by a list of closed intervals. -/
def coveredFinset (l : List Ivl) : Finset ℤ :=
  l.foldr (fun p acc => Finset.Icc p.1 p.2 ∪ acc) ∅

theorem mem_coveredFinset {l : List Ivl} {x : ℤ} :
    x ∈ coveredFinset l ↔ covers l x := by
  induction l with
  | nil => simp [coveredFinset, covers]
  | cons p t ih =>
    simp only [coveredFinset, List.foldr_cons, Finset.mem_union, Finset.mem_Icc,
      covers_cons] at *
    rw [ih]

theorem covers_append {a b : List Ivl} {x : ℤ} :
    covers (a ++ b) x ↔ covers a x ∨ covers b x := by
  unfold covers
  constructor
  · rintro ⟨p, hp, h1⟩
    rcases List.mem_append.mp hp with hp | hp
    · exact Or.inl ⟨p, hp, h1⟩
    · exact Or.inr ⟨p, hp, h1⟩
  · rintro (⟨p, hp, h1⟩ | ⟨p, hp, h1⟩)
    · exact ⟨p, List.mem_append.mpr (Or.inl hp), h1⟩
    · exact ⟨p, List.mem_append.mpr (Or.inr hp), h1⟩

theorem coveredFinset_append (a b : List Ivl) :
    coveredFinset (a ++ b) = coveredFinset a ∪ coveredFinset b := by
  ext x
  simp [mem_coveredFinset, covers_append]

theorem coveredFinset_mergeAdj {slack : ℤ} (hs : slack ≤ 1) (l : List Ivl) :
    coveredFinset (mergeAdj slack l) = coveredFinset l := by
  ext x
  rw [mem_coveredFinset, mem_coveredFinset, mergeAdj_covers hs]

theorem chain_head_lt {slack : ℤ} (hs : 0 ≤ slack) {p : Ivl} {t : List Ivl}
    (hchain : List.Chain' (gapGt slack) (p :: t)) (hprop : IvlProper t) :
    ∀ q ∈ t, p.2 < q.1 := by
  induction t generalizing p with
  | nil => intro q hq; simp at hq
  | cons c rest ih =>
    intro q hq
    have h1 : gapGt slack p c := (List.chain'_cons.mp hchain).1
    unfold gapGt at h1
    rcases List.mem_cons.mp hq with hq | hq
    · subst hq; omega
    · have h2 := ih (List.chain'_cons.mp hchain).2
        (fun r hr => hprop r (by simp [hr])) q hq
      have h3 : c.1 ≤ c.2 := hprop c (by simp)
      omega

theorem sumLen_eq_card {slack : ℤ} (hs : 0 ≤ slack) {m : List Ivl}
    (hchain : List.Chain' (gapGt slack) m) (hprop : IvlProper m) :
    ((m.map (fun p => p.2 - p.1 + 1)).sum) = ((coveredFinset m).card : ℤ) := by
  induction m with
  | nil => simp [coveredFinset]
  | cons p t ih =>
    have htprop : IvlProper t := fun q hq => hprop q (by simp [hq])
    have hdisj : Disjoint (Finset.Icc p.1 p.2) (coveredFinset t) := by
      rw [Finset.disjoint_left]
      intro x hx hx2
      rw [Finset.mem_Icc] at hx
      rw [mem_coveredFinset] at hx2
      obtain ⟨q, hq, hxq⟩ := hx2
      have := chain_head_lt hs hchain htprop q hq
      omega
    have hcard : coveredFinset (p :: t) = Finset.Icc p.1 p.2 ∪ coveredFinset t := by
      simp [coveredFinset]
    rw [List.map_cons, List.sum_cons, hcard, Finset.card_union_of_disjoint hdisj,
      ih (List.chain'_cons'.mp hchain).2 htprop]
    have hp : p.1 ≤ p.2 := hprop p (by simp)
    rw [Int.card_Icc]
    push_cast [Int.toNat_of_nonneg (by omega : (0 : ℤ) ≤ p.2 + 1 - p.1)]
    ring

theorem _line_interval_length_eq_card {l : List Ivl} (h : IvlProper l) :
    _line_interval_length l = ((coveredFinset l).card : ℤ) := by
  unfold _line_interval_length _merge_line_intervals
  rw [sumLen_eq_card (by norm_num) (mergeAdj_chain 1 l) (mergeAdj_proper h),
    coveredFinset_mergeAdj (by norm_num)]

theorem Core.length_eq_card {l : List Ivl} (h : IvlProper l) :
    Core.length l = ((coveredFinset l).card : ℤ) := by
  unfold Core.length Core.merge
  rw [sumLen_eq_card (by norm_num) (mergeAdj_chain 0 l) (mergeAdj_proper h),
    coveredFinset_mergeAdj (by norm_num)]

/-- Overlap test of `extract_def_set_in_spans`: the definition `(kind, s, e)`
shares at least one byte with some requested interval
(`not (def_end < span_start or def_start > span_end)`, with `break` on the
first hit). -/
def touchesSpans (d : String × ℤ × ℤ) (ivs : List Ivl) : Bool :=
  ivs.any (fun sp => decide (¬(d.2.2 < sp.1 ∨ d.2.1 > sp.2)))

theorem touchesSpans_iff (d : String × ℤ × ℤ) (ivs : List Ivl) :
    touchesSpans d ivs = true ↔ ∃ sp ∈ ivs, ¬(d.2.2 < sp.1 ∨ d.2.1 > sp.2) := by
  simp [touchesSpans]

/-- `extract_def_set_in_spans` from `contextbench/extractors/treesitter.py`.
`extract_defs` is the oracle for the tree-sitter parse `extract_defs(abs_path)`
(the `(kind, start_byte, end_byte)` definition nodes of a file), and
`file_on_disk` is the oracle for `os.path.exists(os.path.join(repo_dir, f))`;
both are external effects of the checked-out repository. -/
def extract_def_set_in_spans (extract_defs : String → List (String × ℤ × ℤ))
    (file_on_disk : String → Bool) (spans_by_file : SpanMap) : Finset DefRec :=
  spans_by_file.foldl (fun result e =>
    if file_on_disk e.1 then
      (extract_defs e.1).foldl (fun res d =>
        if touchesSpans d e.2 then insert (e.1, d) res else res) result
    else result) ∅

theorem mem_defs_fold {f : String} {defs : List (String × ℤ × ℤ)} {ivs : List Ivl}
    {acc : Finset DefRec} {x : DefRec} :
    (x ∈ defs.foldl (fun res d =>
        if touchesSpans d ivs then insert (f, d) res else res) acc) ↔
      x ∈ acc ∨ ∃ d ∈ defs, touchesSpans d ivs = true ∧ x = (f, d) := by
  induction defs generalizing acc with
  | nil => simp
  | cons d rest ih =>
    rw [List.foldl_cons]
    by_cases hd : touchesSpans d ivs
    · rw [if_pos hd, ih]
      simp only [Finset.mem_insert, List.mem_cons]
      constructor
      · rintro ((h | h) | ⟨d2, hd2, h1, h2⟩)
        · exact Or.inr ⟨d, Or.inl rfl, hd, h⟩
        · exact Or.inl h
        · exact Or.inr ⟨d2, Or.inr hd2, h1, h2⟩
      · rintro (h | ⟨d2, (hd2 | hd2), h1, h2⟩)
        · exact Or.inl (Or.inr h)
        · exact Or.inl (Or.inl (hd2 ▸ h2))
        · exact Or.inr ⟨d2, hd2, h1, h2⟩
    · rw [if_neg hd, ih]
      simp only [List.mem_cons]
      constructor
      · rintro (h | ⟨d2, hd2, h1, h2⟩)
        · exact Or.inl h
        · exact Or.inr ⟨d2, Or.inr hd2, h1, h2⟩
      · rintro (h | ⟨d2, (hd2 | hd2), h1, h2⟩)
        · exact Or.inl h
        · exact absurd (hd2 ▸ h1) hd
        · exact Or.inr ⟨d2, hd2, h1, h2⟩

theorem mem_extract_def_set_in_spans_aux
    {extract_defs : String → List (String × ℤ × ℤ)} {file_on_disk : String → Bool}
    {spans_by_file : SpanMap} {acc : Finset DefRec} {x : DefRec} :
    (x ∈ spans_by_file.foldl (fun result e =>
        if file_on_disk e.1 then
          (extract_defs e.1).foldl (fun res d =>
            if touchesSpans d e.2 then insert (e.1, d) res else res) result
        else result) acc) ↔
      x ∈ acc ∨ ∃ e ∈ spans_by_file, file_on_disk e.1 = true ∧
        ∃ d ∈ extract_defs e.1, touchesSpans d e.2 = true ∧ x = (e.1, d) := by
  induction spans_by_file generalizing acc with
  | nil => simp
  | cons e rest ih =>
    rw [List.foldl_cons]
    by_cases he : file_on_disk e.1
    · rw [if_pos he, ih, mem_defs_fold]
      simp only [List.mem_cons]
      constructor
      · rintro ((h | ⟨d, hd, h1, h2⟩) | ⟨e2, he2, h1, h2⟩)
        · exact Or.inl h
        · exact Or.inr ⟨e, Or.inl rfl, he, d, hd, h1, h2⟩
        · exact Or.inr ⟨e2, Or.inr he2, h1, h2⟩
      · rintro (h | ⟨e2, (he2 | he2), h1, d, hd, h2, h3⟩)
        · exact Or.inl (Or.inl h)
        · exact Or.inl (Or.inr ⟨d, he2 ▸ hd, he2 ▸ h2, he2 ▸ h3⟩)
        · exact Or.inr ⟨e2, he2, h1, d, hd, h2, h3⟩
    · rw [if_neg he, ih]
      simp only [List.mem_cons]
      constructor
      · rintro (h | ⟨e2, he2, h1, h2⟩)
        · exact Or.inl h
        · exact Or.inr ⟨e2, Or.inr he2, h1, h2⟩
      · rintro (h | ⟨e2, (he2 | he2), h1, h2⟩)
        · exact Or.inl h
        · exact absurd (he2 ▸ h1) he
        · exact Or.inr ⟨e2, he2, h1, h2⟩

theorem mem_extract_def_set_in_spans
    (extract_defs : String → List (String × ℤ × ℤ)) (file_on_disk : String → Bool)
    (spans_by_file : SpanMap) (x : DefRec) :
    (x ∈ extract_def_set_in_spans extract_defs file_on_disk spans_by_file) ↔
      ∃ e ∈ spans_by_file, file_on_disk e.1 = true ∧
        ∃ d ∈ extract_defs e.1, touchesSpans d e.2 = true ∧ x = (e.1, d) := by
  unfold extract_def_set_in_spans
  rw [mem_extract_def_set_in_spans_aux]
  simp

/-- C5: `extract_def_set_in_spans` returns exactly those definition records of
each requested file that share at least one byte with some requested interval
of that file (touch semantics, not containment); consequently, for a file
whose overlap hits pick out a single definition `(k, a, b)`, a request for a
span `[s, e]` lying entirely inside that definition yields exactly the one
record `(f, k, a, b)`, regardless of the span's length. -/
theorem C5_extract_def_set_in_spans
    (extract_defs : String → List (String × ℤ × ℤ)) (file_on_disk : String → Bool)
    (spans_by_file : SpanMap) (x : DefRec) (f k : String) (a b s e : ℤ) :
    ((x ∈ extract_def_set_in_spans extract_defs file_on_disk spans_by_file) ↔
      ∃ entry ∈ spans_by_file, x.1 = entry.1 ∧ file_on_disk entry.1 = true ∧
        x.2 ∈ extract_defs entry.1 ∧
        ∃ sp ∈ entry.2, ¬(x.2.2.2 < sp.1 ∨ x.2.2.1 > sp.2)) ∧
    (file_on_disk f = true → (k, a, b) ∈ extract_defs f →
      a ≤ s → s ≤ e → e ≤ b →
      (∀ d ∈ extract_defs f, ¬(d.2.2 < s ∨ d.2.1 > e) → d = (k, a, b)) →
      extract_def_set_in_spans extract_defs file_on_disk [(f, [(s, e)])] =
        {(f, k, a, b)}) := by
  constructor
  · rw [mem_extract_def_set_in_spans]
    constructor
    · rintro ⟨en, hen, hdisk, d, hd, htouch, hx⟩
      refine ⟨en, hen, by rw [hx], hdisk, by rw [hx]; exact hd, ?_⟩
      obtain ⟨sp, hsp, hover⟩ := (touchesSpans_iff d en.2).mp htouch
      exact ⟨sp, hsp, by rw [hx]; exact hover⟩
    · rintro ⟨en, hen, hx1, hdisk, hd, sp, hsp, hover⟩
      refine ⟨en, hen, hdisk, x.2, hd, ?_, by rw [← hx1]⟩
      exact (touchesSpans_iff x.2 en.2).mpr ⟨sp, hsp, hover⟩
  · intro hdisk hmem ha hs he huniq
    ext y
    rw [mem_extract_def_set_in_spans]
    simp only [List.mem_cons, List.not_mem_nil, or_false, Finset.mem_singleton]
    constructor
    · rintro ⟨en, hen, hdisk2, d, hd, htouch, hy⟩
      subst hen
      obtain ⟨sp, hsp, hover⟩ := (touchesSpans_iff d _).mp htouch
      simp only [List.mem_cons, List.not_mem_nil, or_false] at hsp
      subst hsp
      have := huniq d hd hover
      rw [hy, this]
    · intro hy
      refine ⟨(f, [(s, e)]), rfl, hdisk, (k, a, b), hmem, ?_, hy⟩
      rw [touchesSpans_iff]
      exact ⟨(s, e), by simp, by simp only; omega⟩

/-- C5 witness: the theorem applied to a file `"m.py"` holding a single
40-byte function definition and a 3-byte span inside it; the result is
exactly that one record. -/
theorem C5_extract_def_set_in_spans_witness :
    extract_def_set_in_spans
        (fun f => if f = "m.py" then [("function_definition", 100, 140)] else [])
        (fun f => f = "m.py")
        [("m.py", [(110, 112)])] =
      {("m.py", "function_definition", 100, 140)} := by
  refine (C5_extract_def_set_in_spans
      (fun f => if f = "m.py" then [("function_definition", 100, 140)] else [])
      (fun f => f = "m.py") [("m.py", [(110, 112)])]
      ("m.py", "function_definition", 100, 140)
      "m.py" "function_definition" 100 140 110 112).2
    (by decide) (by decide) (by norm_num) (by norm_num) (by norm_num) ?_
  intro d hd hover
  simp only [if_true, reduceIte, List.mem_cons, List.not_mem_nil, or_false] at hd
  exact hd

/-- One entry of `pred_steps` in the unified `traj_data` format consumed by
`parse_trajectory`: a files list, a span dict (file to list of
`start`/`end` records, modelled as pairs) and a symbols dict. -/
structure StepData where
  files : List String
  spans : List (String × List Ivl)
  symbols : List (String × List String)
deriving DecidableEq

/-- The `traj_data` dict consumed by `parse_trajectory`. -/
structure TrajData where
  pred_steps : List StepData
  pred_files : List String
  pred_spans : List (String × List Ivl)
  pred_symbols : List (String × List String)
deriving DecidableEq

/-- The span-dict flattening of `parse_trajectory`: every
`{'start': s, 'end': e}` record of every file becomes
`{'file': f, 'start_line': s, 'end_line': e}`, in dict iteration order. -/
def spans_dict_to_list (d : List (String × List Ivl)) : List SpanRec :=
  (d.map (fun e => e.2.map (fun sp => SpanRec.mk e.1 sp.1 sp.2))).flatten

/-- The final `Step` built by `parse_trajectory` from `pred_files`,
`pred_spans` and `pred_symbols`. -/
def final_step_of (data : TrajData) : Step :=
  ⟨data.pred_files, spans_dict_to_list data.pred_spans, data.pred_symbols⟩

/-- `parse_trajectory` from `contextbench/parsers/trajectory.py`: convert
each `pred_steps` entry to a `Step`, build the final step, and fall back to
`[final_step]` when no trajectory steps were extracted. -/
def parse_trajectory (data : TrajData) : List Step × Step :=
  let traj_steps := data.pred_steps.map
    (fun sd => Step.mk sd.files (spans_dict_to_list sd.spans) sd.symbols)
  let final_step := final_step_of data
  let traj_steps2 := if traj_steps = [] then [final_step] else traj_steps
  (traj_steps2, final_step)

theorem trajStep_perStep_length
    (extract_from_names : List (String × List String) → Finset DefRec)
    (extract_in_spans : SpanMap → Finset DefRec)
    (line_to_byte : String → ℤ → ℤ → Option Ivl)
    (gold_files : Finset String) (gold_symbols : Finset DefRec) (gold_spans : SpanMap)
    (gold_lines : SpanMap) (st : TrajState) (s : Step) :
    (trajStep extract_from_names extract_in_spans line_to_byte
        gold_files gold_symbols gold_spans gold_lines st s).perStep.length =
      st.perStep.length + 1 := by
  simp [trajStep]

theorem trajFold_perStep_length
    (extract_from_names : List (String × List String) → Finset DefRec)
    (extract_in_spans : SpanMap → Finset DefRec)
    (line_to_byte : String → ℤ → ℤ → Option Ivl)
    (gold_files : Finset String) (gold_symbols : Finset DefRec) (gold_spans : SpanMap)
    (gold_lines : SpanMap) (steps : List Step) (st : TrajState) :
    (steps.foldl
        (trajStep extract_from_names extract_in_spans line_to_byte
          gold_files gold_symbols gold_spans gold_lines) st).perStep.length =
      st.perStep.length + steps.length := by
  induction steps generalizing st with
  | nil => simp
  | cons s rest ih =>
    rw [List.foldl_cons, ih, trajStep_perStep_length]
    simp only [List.length_cons]
    omega

theorem compute_trajectory_metrics_steps_length
    (extract_from_names : List (String × List String) → Finset DefRec)
    (extract_in_spans : SpanMap → Finset DefRec)
    (line_to_byte : String → ℤ → ℤ → Option Ivl)
    (steps : List Step) (gold_files : Finset String) (gold_symbols : Finset DefRec)
    (gold_spans : SpanMap) (gold_lines_opt : Option SpanMap) :
    (compute_trajectory_metrics extract_from_names extract_in_spans line_to_byte
        steps gold_files gold_symbols gold_spans gold_lines_opt).steps.length =
      steps.length := by
  unfold compute_trajectory_metrics
  by_cases h : steps.length = 0
  · rw [if_pos h, h]
    simp
  · rw [if_neg h]
    simp only
    rw [trajFold_perStep_length]
    simp [trajInit]

/-- C9: when `traj_data` has an empty `pred_steps` list, `parse_trajectory`
returns the final step as the single trajectory step
(`([final_step], final_step)`), so such an instance is scored as a one-step
trajectory equal to its final context: `compute_trajectory_metrics` then
produces one per-step entry, not the zero-step result. -/
theorem C9_parse_trajectory_fallback (data : TrajData)
    (h : data.pred_steps = []) :
    parse_trajectory data = ([final_step_of data], final_step_of data) ∧
    (parse_trajectory data).1.length = 1 ∧
    (∀ (extract_from_names : List (String × List String) → Finset DefRec)
      (extract_in_spans : SpanMap → Finset DefRec)
      (line_to_byte : String → ℤ → ℤ → Option Ivl)
      (gold_files : Finset String) (gold_symbols : Finset DefRec)
      (gold_spans : SpanMap) (gold_lines_opt : Option SpanMap),
      (compute_trajectory_metrics extract_from_names extract_in_spans line_to_byte
          (parse_trajectory data).1 gold_files gold_symbols gold_spans
          gold_lines_opt).steps.length = 1) := by
  have h1 : parse_trajectory data = ([final_step_of data], final_step_of data) := by
    unfold parse_trajectory
    rw [h]
    simp
  refine ⟨h1, by rw [h1]; rfl, fun efn eis ltb gf gs gsp glo => ?_⟩
  rw [compute_trajectory_metrics_steps_length, h1]
  rfl

/-- C9 witness: a trajectory record with no extractable steps but a
non-empty final context parses to one step equal to the final step. -/
theorem C9_parse_trajectory_fallback_witness :
    parse_trajectory ⟨[], ["src/a.py"], [("src/a.py", [(3, 7)])], []⟩ =
      ([⟨["src/a.py"], [⟨"src/a.py", 3, 7⟩], []⟩],
        ⟨["src/a.py"], [⟨"src/a.py", 3, 7⟩], []⟩) := by
  have := (C9_parse_trajectory_fallback
    ⟨[], ["src/a.py"], [("src/a.py", [(3, 7)])], []⟩ rfl).1
  rw [this]
  rfl

/-- Python `str.strip()` whitespace set. -/
def pyWs (c : Char) : Bool :=
  c = ' ' || c = '\t' || c = '\n' || c = '\r' || c = '\x0b' || c = '\x0c'

/-- Strip characters satisfying `pred` from both ends of a string. -/
def stripEnds (pred : Char → Bool) (s : List Char) : List Char :=
  ((s.dropWhile pred).reverse.dropWhile pred).reverse

/-- Python `.strip("'\x22")`: strip single and double quotes from both ends. -/
def stripQuotes (s : List Char) : List Char :=
  stripEnds (fun c => c = '\'' || c = '"') s

/-- Python `.replace("\x5c", "/")`: forward-slash every backslash. -/
def slashify (s : List Char) : List Char :=
  s.map (fun c => if c = '\\' then '/' else c)

/-- Python `while p.startswith("./"): p = p[2:]`. -/
def dropDotSlash : List Char → List Char
  | '.' :: '/' :: rest => dropDotSlash rest
  | l => l

/-- Python `p.split("/")` (keeping empty segments, as `str.split` does). -/
def splitSlash : List Char → List (List Char)
  | [] => [[]]
  | c :: rest =>
    if c = '/' then [] :: splitSlash rest
    else
      match splitSlash rest with
      | [] => [[c]]
      | g :: gs => (c :: g) :: gs

/-- Python `"/".join(parts)`. -/
def joinSlash : List (List Char) → List Char
  | [] => []
  | [x] => x
  | x :: rest => x ++ '/' :: joinSlash rest

/-- Lexical resolution of `.` and `..` segments, as `os.path.realpath`
performs on a worktree without symbolic links: `..` pops one segment and
resolving above the repository root yields `none` (which is exactly when
`os.path.commonpath([repo_real, target_real]) != repo_real`, the escape
rejection of `_is_repo_file`). -/
def normSegsAux : List (List Char) → List (List Char) → Option (List (List Char))
  | acc, [] => some acc.reverse
  | acc, s :: rest =>
    if s = ['.'] then normSegsAux acc rest
    else if s = ['.', '.'] then
      match acc with
      | [] => none
      | _ :: t => normSegsAux t rest
    else normSegsAux (s :: acc) rest

/-- Resolve `.` and `..` in a segment list relative to the repo root. -/
def normSegs (segs : List (List Char)) : Option (List (List Char)) :=
  normSegsAux [] segs

/-- `_is_repo_file` from `contextbench/evaluate.py`.  The filesystem of the
checked-out worktree is the oracle `fs`: `fs segs = true` iff the normalized
repo-relative path with segments `segs` is an existing regular file (the
repo root itself, `segs = []`, is a directory, hence never a regular file).
`os.path.realpath` is modelled lexically (`normSegs`), i.e. the worktree is
assumed symlink-free, and the `commonpath` containment check is the
`normSegs = none` escape rejection. -/
def _is_repo_file (repo_dir : String) (fs : List String → Bool) (rel_path : String) :
    Bool :=
  if repo_dir.data = [] ∨ rel_path.data = [] then false
  else
    if stripEnds pyWs rel_path.data = [] then false
    else
      match stripEnds pyWs rel_path.data with
      | '/' :: _ => false
      | p =>
        match normSegs ((splitSlash p).filter (fun x => x ≠ [])) with
        | none => false
        | some segs =>
          if segs = [] then false else fs (segs.map (fun cs => String.mk cs))

/-- The suffix loop of `_resolve_repo_relpath`:
`for i in range(0, len(parts)): cand = "/".join(parts[i:]) ...`. -/
def resolveLoop (repo_dir : String) (fs : List String → Bool) :
    List (List Char) → String
  | [] => ""
  | x :: rest =>
    let cand := String.mk (joinSlash (x :: rest))
    if _is_repo_file repo_dir fs cand then cand else resolveLoop repo_dir fs rest

/-- Python `if p.startswith("/"): p = p.lstrip("/")`. -/
def stripLeadSlash (p : List Char) : List Char :=
  match p with
  | '/' :: _ => p.dropWhile (fun c => c = '/')
  | _ => p

/-- `_resolve_repo_relpath` from `contextbench/evaluate.py`. -/
def _resolve_repo_relpath (repo_dir : String) (fs : List String → Bool)
    (path : String) : String :=
  if repo_dir.data = [] ∨ path.data = [] then ""
  else
    if slashify (stripQuotes (stripEnds pyWs path.data)) = [] then ""
    else
      if stripLeadSlash (dropDotSlash (slashify (stripQuotes (stripEnds pyWs path.data)))) = [] then ""
      else
        if (splitSlash (stripLeadSlash (dropDotSlash (slashify (stripQuotes (stripEnds pyWs path.data)))))).filter (fun x => x ≠ []) = [] then ""
        else
          resolveLoop repo_dir fs
            ((splitSlash (stripLeadSlash (dropDotSlash (slashify (stripQuotes (stripEnds pyWs path.data)))))).filter (fun x => x ≠ []))

/-- The normalized candidate segment list of a predicted path: quote/space
stripping, backslash normalization, leading `./` and `/` removal, split on
`/` dropping empty segments. -/
def resolve_candidates (path : String) : List (List Char) :=
  (splitSlash (stripLeadSlash (dropDotSlash (slashify (stripQuotes (stripEnds pyWs path.data)))))).filter (fun x => x ≠ [])

/-- Declarative form of the resolver: the first non-empty tail of the
candidate segments whose join `_is_repo_file` accepts, or `""`. -/
def resolve_spec (repo_dir : String) (fs : List String → Bool) (path : String) :
    String :=
  if repo_dir.data = [] then ""
  else
    (((((resolve_candidates path).tails.filter (fun t => t ≠ [])).find?
        (fun t => _is_repo_file repo_dir fs (String.mk (joinSlash t)))).map
        (fun t => String.mk (joinSlash t))).getD "")

theorem resolveLoop_eq (repo_dir : String) (fs : List String → Bool) :
    ∀ l : List (List Char),
      resolveLoop repo_dir fs l =
        ((((l.tails.filter (fun t => t ≠ [])).find?
            (fun t => _is_repo_file repo_dir fs (String.mk (joinSlash t)))).map
            (fun t => String.mk (joinSlash t))).getD "") := by
  intro l
  induction l with
  | nil => rfl
  | cons x rest ih =>
    rw [List.tails_cons]
    have hne : (x :: rest : List (List Char)) ≠ [] := by simp
    rw [List.filter_cons_of_pos (by simp)]
    by_cases h : _is_repo_file repo_dir fs (String.mk (joinSlash (x :: rest)))
    · rw [List.find?_cons_of_pos _ (by simpa using h)]
      unfold resolveLoop
      rw [if_pos h]
      rfl
    · rw [List.find?_cons_of_neg _ (by simpa using h)]
      unfold resolveLoop
      rw [if_neg h]
      exact ih

theorem resolve_as_loop (repo_dir : String) (fs : List String → Bool) (path : String) :
    repo_dir.data ≠ [] →
    _resolve_repo_relpath repo_dir fs path =
      resolveLoop repo_dir fs (resolve_candidates path) := by
  intro hrd
  unfold _resolve_repo_relpath
  by_cases h0 : path.data = []
  · rw [if_pos (Or.inr h0)]
    unfold resolve_candidates
    rw [h0]
    rfl
  · rw [if_neg (by tauto)]
    by_cases h1 : slashify (stripQuotes (stripEnds pyWs path.data)) = []
    · rw [if_pos h1]
      unfold resolve_candidates
      rw [h1]
      rfl
    · rw [if_neg h1]
      by_cases h2 : stripLeadSlash (dropDotSlash (slashify (stripQuotes (stripEnds pyWs path.data)))) = []
      · rw [if_pos h2]
        unfold resolve_candidates
        rw [h2]
        rfl
      · rw [if_neg h2]
        by_cases h3 : (splitSlash (stripLeadSlash (dropDotSlash (slashify (stripQuotes (stripEnds pyWs path.data)))))).filter (fun x => x ≠ []) = []
        · rw [if_pos h3]
          unfold resolve_candidates
          rw [h3]
          rfl
        · rw [if_neg h3]
          rfl

/-- C2: the resolver normalizes quoting and slashes, strips leading `./` and
`/`, then progressively drops leading path segments and returns the first
suffix naming an existing regular file whose resolved real path stays inside
`repo_dir` (`resolve_spec`), and `""` when no suffix matches; in particular,
over a worktree whose only file is `src/a.py`, both `/testbed/src/a.py` and
`src/a.py` resolve to `src/a.py` while `/etc/passwd` resolves to `""`, and a
path escaping the worktree (`../x`) is rejected even when the escaped-to
file exists. -/
theorem C2_resolve_repo_relpath :
    (∀ (repo_dir : String) (fs : List String → Bool) (path : String),
      _resolve_repo_relpath repo_dir fs path = resolve_spec repo_dir fs path) ∧
    _resolve_repo_relpath "repo" (fun segs => segs = ["src", "a.py"])
      "/testbed/src/a.py" = "src/a.py" ∧
    _resolve_repo_relpath "repo" (fun segs => segs = ["src", "a.py"])
      "src/a.py" = "src/a.py" ∧
    _resolve_repo_relpath "repo" (fun segs => segs = ["src", "a.py"])
      "/etc/passwd" = "" ∧
    _is_repo_file "repo" (fun _ => true) "../x" = false := by
  refine ⟨fun repo_dir fs path => ?_, by decide, by decide, by decide, by decide⟩
  unfold resolve_spec
  by_cases hrd : repo_dir.data = []
  · rw [if_pos hrd]
    unfold _resolve_repo_relpath
    rw [if_pos (Or.inl hrd)]
  · rw [if_neg hrd, resolve_as_loop repo_dir fs path hrd, resolveLoop_eq]

/-- One line of a unified-diff hunk: context, deleted, or added. -/
inductive DiffLine
  | ctx
  | del
  | add
deriving DecidableEq

/-- One hunk of a unified diff: the original-file start line (the `-start`
of the `@@` header) and the line sequence. -/
structure Hunk where
  orig_start : ℤ
  lines : List DiffLine
deriving DecidableEq

/-- The hunks of one file of a unified diff. -/
structure FileDiff where
  file : String
  hunks : List Hunk
deriving DecidableEq

/-- Original-file line numbers of the deleted lines of a hunk: context and
deleted lines advance the original-line counter, added lines do not (they
have no original-file location). -/
def hunkDeletedLines : ℤ → List DiffLine → List ℤ
  | _, [] => []
  | n, DiffLine.ctx :: rest => hunkDeletedLines (n + 1) rest
  | n, DiffLine.del :: rest => n :: hunkDeletedLines (n + 1) rest
  | n, DiffLine.add :: rest => hunkDeletedLines n rest

/-- Modelled from the spec: `parse_diff_lines` of
`contextbench/parsers/diff.py` is not in the source tree.  Per spec §4.6,
called with `deletions_only=True` it restricts a unified diff to its
deleted lines only and locates them in the original file; the unified diff
is modelled structurally as per-file hunks, and the per-file deleted line
numbers are returned as merged line intervals. -/
def parse_diff_lines (diff : List FileDiff) : SpanMap :=
  diff.map (fun fd =>
    (fd.file,
      _merge_line_intervals
        ((fd.hunks.map (fun h =>
          (hunkDeletedLines h.orig_start h.lines).map (fun n => (n, n)))).flatten)))

/-- Python `range(start, end + 1)` over integers. -/
def lineRange (s e : ℤ) : List ℤ :=
  (List.range (e + 1 - s).toNat).map (fun i => s + (i : ℤ))

/-- Membership of a line in some gold range
(`gold_start <= line_num <= gold_end`, with `break` on the first hit). -/
def inGoldRanges (gold_ranges : List Ivl) (n : ℤ) : Bool :=
  gold_ranges.any (fun g => decide (g.1 ≤ n ∧ n ≤ g.2))

/-- The `editloc` entry of an `evaluate_instance` result row (`recall_` is
the `recall` key; `recall` is a reserved command name). -/
structure EditLocRes where
  recall_ : ℚ
  precision : ℚ
  intersection : ℤ
  gold_size : ℤ
  pred_size : ℤ
deriving DecidableEq

/-- The EditLoc block of `evaluate_instance` from `contextbench/evaluate.py`:
enumerate every deleted line of the predicted diff, collect those falling
inside a gold range of the same file, and report
`recall = precision = hits / total` (`0.0` when the diff deletes no lines),
with `gold_size` the total line count of the gold ranges. -/
def editloc_metrics (pred_line_edits : SpanMap) (gold_line_spans : SpanMap) :
    EditLocRes :=
  let pairs := pred_line_edits.foldl
    (fun (acc : List (String × ℤ) × List (String × ℤ)) e =>
      let gold_ranges := alistGet gold_line_spans e.1
      e.2.foldl (fun acc2 sp =>
        (lineRange sp.1 sp.2).foldl (fun acc3 n =>
          (acc3.1 ++ [(e.1, n)],
           if inGoldRanges gold_ranges n then acc3.2 ++ [(e.1, n)] else acc3.2)) acc2) acc)
    ([], [])
  let pred_line_count : ℤ := pairs.1.length
  let hit_count : ℤ := pairs.2.length
  let recall_ : ℚ :=
    if 0 < pred_line_count then (hit_count : ℚ) / (pred_line_count : ℚ) else 0
  let precision : ℚ :=
    if 0 < pred_line_count then (hit_count : ℚ) / (pred_line_count : ℚ) else 0
  let gold_line_count : ℤ :=
    (gold_line_spans.map (fun e => (e.2.map (fun sp => sp.2 - sp.1 + 1)).sum)).sum
  ⟨recall_, precision, hit_count, gold_line_count, pred_line_count⟩

/-- Total number of deleted lines of the predicted edits. -/
def editloc_total (pred : SpanMap) : ℕ :=
  (pred.map (fun e => (e.2.map (fun sp => (lineRange sp.1 sp.2).length)).sum)).sum

/-- Number of deleted lines falling inside a gold range of the same file. -/
def editloc_hits (pred gold : SpanMap) : ℕ :=
  (pred.map (fun e =>
    (e.2.map (fun sp =>
      ((lineRange sp.1 sp.2).filter
        (fun n => inGoldRanges (alistGet gold e.1) n)).length)).sum)).sum

theorem editlocFold3 (f : String) (P : ℤ → Bool) (ns : List ℤ)
    (acc : List (String × ℤ) × List (String × ℤ)) :
    (ns.foldl (fun a n => (a.1 ++ [(f, n)], if P n then a.2 ++ [(f, n)] else a.2)) acc).1.length =
        acc.1.length + ns.length ∧
      (ns.foldl (fun a n => (a.1 ++ [(f, n)], if P n then a.2 ++ [(f, n)] else a.2)) acc).2.length =
        acc.2.length + (ns.filter P).length := by
  induction ns generalizing acc with
  | nil => simp
  | cons n rest ih =>
    rw [List.foldl_cons]
    obtain ⟨ih1, ih2⟩ := ih (acc.1 ++ [(f, n)], if P n then acc.2 ++ [(f, n)] else acc.2)
    dsimp only at ih1 ih2
    constructor
    · rw [ih1]
      simp
      omega
    · rw [ih2]
      by_cases hp : P n
      · rw [if_pos hp, List.filter_cons_of_pos hp]
        simp
        omega
      · rw [if_neg hp, List.filter_cons_of_neg (by simpa using hp)]

theorem editlocFold2 (f : String) (P : ℤ → Bool) (ivs : List Ivl)
    (acc : List (String × ℤ) × List (String × ℤ)) :
    (ivs.foldl (fun a2 sp =>
        (lineRange sp.1 sp.2).foldl
          (fun a n => (a.1 ++ [(f, n)], if P n then a.2 ++ [(f, n)] else a.2)) a2) acc).1.length =
        acc.1.length + (ivs.map (fun sp => (lineRange sp.1 sp.2).length)).sum ∧
      (ivs.foldl (fun a2 sp =>
        (lineRange sp.1 sp.2).foldl
          (fun a n => (a.1 ++ [(f, n)], if P n then a.2 ++ [(f, n)] else a.2)) a2) acc).2.length =
        acc.2.length + (ivs.map (fun sp => ((lineRange sp.1 sp.2).filter P).length)).sum := by
  induction ivs generalizing acc with
  | nil => simp
  | cons sp rest ih =>
    rw [List.foldl_cons]
    obtain ⟨ih1, ih2⟩ := ih ((lineRange sp.1 sp.2).foldl
      (fun a n => (a.1 ++ [(f, n)], if P n then a.2 ++ [(f, n)] else a.2)) acc)
    obtain ⟨h1, h2⟩ := editlocFold3 f P (lineRange sp.1 sp.2) acc
    refine ⟨?_, ?_⟩
    · rw [ih1, h1, List.map_cons, List.sum_cons]
      omega
    · rw [ih2, h2, List.map_cons, List.sum_cons]
      omega

theorem editlocFold1 (gold : SpanMap) (pred : SpanMap)
    (acc : List (String × ℤ) × List (String × ℤ)) :
    (pred.foldl (fun a e =>
        e.2.foldl (fun a2 sp =>
          (lineRange sp.1 sp.2).foldl
            (fun a3 n => (a3.1 ++ [(e.1, n)],
              if inGoldRanges (alistGet gold e.1) n then a3.2 ++ [(e.1, n)] else a3.2)) a2) a)
        acc).1.length =
        acc.1.length + editloc_total pred ∧
      (pred.foldl (fun a e =>
        e.2.foldl (fun a2 sp =>
          (lineRange sp.1 sp.2).foldl
            (fun a3 n => (a3.1 ++ [(e.1, n)],
              if inGoldRanges (alistGet gold e.1) n then a3.2 ++ [(e.1, n)] else a3.2)) a2) a)
        acc).2.length =
        acc.2.length + editloc_hits pred gold := by
  induction pred generalizing acc with
  | nil => simp [editloc_total, editloc_hits]
  | cons e rest ih =>
    rw [List.foldl_cons]
    obtain ⟨ih1, ih2⟩ := ih (e.2.foldl (fun a2 sp =>
      (lineRange sp.1 sp.2).foldl
        (fun a3 n => (a3.1 ++ [(e.1, n)],
          if inGoldRanges (alistGet gold e.1) n then a3.2 ++ [(e.1, n)] else a3.2)) a2) acc)
    obtain ⟨h1, h2⟩ := editlocFold2 e.1 (fun n => inGoldRanges (alistGet gold e.1) n) e.2 acc
    constructor
    · rw [ih1, h1]
      unfold editloc_total
      rw [List.map_cons, List.sum_cons]
      omega
    · rw [ih2, h2]
      unfold editloc_hits
      rw [List.map_cons, List.sum_cons]
      omega

theorem editloc_counts (pred gold : SpanMap) :
    (editloc_metrics pred gold).pred_size = (editloc_total pred : ℤ) ∧
    (editloc_metrics pred gold).intersection = (editloc_hits pred gold : ℤ) := by
  unfold editloc_metrics
  obtain ⟨h1, h2⟩ := editlocFold1 gold pred ([], [])
  simp only at h1 h2 ⊢
  constructor
  · rw [h1]
    simp
  · rw [h2]
    simp

theorem editloc_recall_precision (pred gold : SpanMap) :
    (editloc_metrics pred gold).recall_ = (editloc_metrics pred gold).precision ∧
    (editloc_metrics pred gold).recall_ =
      (if 0 < (editloc_metrics pred gold).pred_size then
        ((editloc_metrics pred gold).intersection : ℚ) /
          ((editloc_metrics pred gold).pred_size : ℚ)
      else 0) :=
  ⟨rfl, rfl⟩

/-- C6: the per-instance EditLoc metric considers only deleted lines and
reports `recall = precision = (deleted lines inside any gold range) /
(total deleted lines)`, both `0.0` when the diff deletes no lines; a diff
deleting lines 12-14 inside gold range 10-20 scores
`recall = precision = 1.0`, one deleting only lines 30-31 outside every
gold range scores `0.0`, and a diff with only added and context lines
deletes nothing and scores `0.0`. -/
theorem C6_editloc :
    (∀ pred gold : SpanMap,
      (editloc_metrics pred gold).recall_ = (editloc_metrics pred gold).precision ∧
      (editloc_metrics pred gold).pred_size = (editloc_total pred : ℤ) ∧
      (editloc_metrics pred gold).intersection = (editloc_hits pred gold : ℤ) ∧
      (editloc_metrics pred gold).recall_ =
        (if 0 < editloc_total pred then
          (editloc_hits pred gold : ℚ) / (editloc_total pred : ℚ)
        else 0)) ∧
    (editloc_metrics (parse_diff_lines [⟨"f.py", [⟨10,
        [DiffLine.ctx, DiffLine.ctx, DiffLine.del, DiffLine.del, DiffLine.del]⟩]⟩])
      [("f.py", [(10, 20)])]).recall_ = 1 ∧
    (editloc_metrics (parse_diff_lines [⟨"f.py", [⟨10,
        [DiffLine.ctx, DiffLine.ctx, DiffLine.del, DiffLine.del, DiffLine.del]⟩]⟩])
      [("f.py", [(10, 20)])]).precision = 1 ∧
    (editloc_metrics (parse_diff_lines [⟨"f.py", [⟨30,
        [DiffLine.del, DiffLine.del]⟩]⟩])
      [("f.py", [(10, 20)])]).recall_ = 0 ∧
    (editloc_metrics (parse_diff_lines [⟨"f.py", [⟨30,
        [DiffLine.del, DiffLine.del]⟩]⟩])
      [("f.py", [(10, 20)])]).precision = 0 ∧
    (editloc_metrics (parse_diff_lines [⟨"f.py", [⟨5,
        [DiffLine.add, DiffLine.add, DiffLine.ctx]⟩]⟩])
      [("f.py", [(10, 20)])]).recall_ = 0 ∧
    (editloc_metrics (parse_diff_lines [⟨"f.py", [⟨5,
        [DiffLine.add, DiffLine.add, DiffLine.ctx]⟩]⟩])
      [("f.py", [(10, 20)])]).precision = 0 := by
  have main : ∀ pred gold : SpanMap,
      (editloc_metrics pred gold).recall_ = (editloc_metrics pred gold).precision ∧
      (editloc_metrics pred gold).pred_size = (editloc_total pred : ℤ) ∧
      (editloc_metrics pred gold).intersection = (editloc_hits pred gold : ℤ) ∧
      (editloc_metrics pred gold).recall_ =
        (if 0 < editloc_total pred then
          (editloc_hits pred gold : ℚ) / (editloc_total pred : ℚ)
        else 0) := by
    intro pred gold
    obtain ⟨hc1, hc2⟩ := editloc_counts pred gold
    obtain ⟨hr1, hr2⟩ := editloc_recall_precision pred gold
    refine ⟨hr1, hc1, hc2, ?_⟩
    rw [hr2, hc1, hc2]
    by_cases h : 0 < editloc_total pred
    · rw [if_pos h, if_pos (by exact_mod_cast h)]
      push_cast
      ring
    · rw [if_neg h, if_neg (by exact_mod_cast h)]
  refine ⟨main, ?_, ?_, ?_, ?_, ?_, ?_⟩
  · rw [(main _ _).2.2.2]
    have h1 : editloc_total (parse_diff_lines [⟨"f.py", [⟨10,
        [DiffLine.ctx, DiffLine.ctx, DiffLine.del, DiffLine.del, DiffLine.del]⟩]⟩]) = 3 := by
      decide
    have h2 : editloc_hits (parse_diff_lines [⟨"f.py", [⟨10,
        [DiffLine.ctx, DiffLine.ctx, DiffLine.del, DiffLine.del, DiffLine.del]⟩]⟩])
        [("f.py", [(10, 20)])] = 3 := by decide
    rw [h1, h2]
    norm_num
  · rw [← (main _ _).1, (main _ _).2.2.2]
    have h1 : editloc_total (parse_diff_lines [⟨"f.py", [⟨10,
        [DiffLine.ctx, DiffLine.ctx, DiffLine.del, DiffLine.del, DiffLine.del]⟩]⟩]) = 3 := by
      decide
    have h2 : editloc_hits (parse_diff_lines [⟨"f.py", [⟨10,
        [DiffLine.ctx, DiffLine.ctx, DiffLine.del, DiffLine.del, DiffLine.del]⟩]⟩])
        [("f.py", [(10, 20)])] = 3 := by decide
    rw [h1, h2]
    norm_num
  · rw [(main _ _).2.2.2]
    have h1 : editloc_total (parse_diff_lines [⟨"f.py", [⟨30,
        [DiffLine.del, DiffLine.del]⟩]⟩]) = 2 := by decide
    have h2 : editloc_hits (parse_diff_lines [⟨"f.py", [⟨30,
        [DiffLine.del, DiffLine.del]⟩]⟩]) [("f.py", [(10, 20)])] = 0 := by decide
    rw [h1, h2]
    norm_num
  · rw [← (main _ _).1, (main _ _).2.2.2]
    have h1 : editloc_total (parse_diff_lines [⟨"f.py", [⟨30,
        [DiffLine.del, DiffLine.del]⟩]⟩]) = 2 := by decide
    have h2 : editloc_hits (parse_diff_lines [⟨"f.py", [⟨30,
        [DiffLine.del, DiffLine.del]⟩]⟩]) [("f.py", [(10, 20)])] = 0 := by decide
    rw [h1, h2]
    norm_num
  · rw [(main _ _).2.2.2]
    have h1 : editloc_total (parse_diff_lines [⟨"f.py", [⟨5,
        [DiffLine.add, DiffLine.add, DiffLine.ctx]⟩]⟩]) = 0 := by decide
    rw [h1]
    norm_num
  · rw [← (main _ _).1, (main _ _).2.2.2]
    have h1 : editloc_total (parse_diff_lines [⟨"f.py", [⟨5,
        [DiffLine.add, DiffLine.add, DiffLine.ctx]⟩]⟩]) = 0 := by decide
    rw [h1]
    norm_num

/-- One result row as seen by `aggregate_results`: whether the row carries
an `"error"` key, and its optional `"editloc"` entry. -/
structure ResultRow where
  hasError : Bool
  editloc : Option EditLocRes
deriving DecidableEq

/-- Summed `editloc` field over the valid rows (Python
`sum(r.get("editloc", {}).get(key, 0) for r in valid)`). -/
def editlocFieldSum (f : EditLocRes → ℤ) (valid : List ResultRow) : ℤ :=
  (valid.map (fun r => ((r.editloc.map f).getD 0))).sum

/-- The EditLoc part of `aggregate_results` from `contextbench/evaluate.py`:
keep rows without an `"error"` key, and if any of them has an `"editloc"`
entry, sum `intersection`, `gold_size` and `pred_size` over all valid rows
(missing entries contribute `0`) and set
`recall, prec = coverage_precision(pred_size, gold_size, intersection)`.
Returns `none` when there are no valid rows or no row has an `editloc`
entry (the Python summary dict then has no `"editloc"` key). -/
def aggregate_editloc (results : List ResultRow) : Option (ℚ × ℚ) :=
  let valid := results.filter (fun r => !r.hasError)
  if valid = [] then none
  else if valid.any (fun r => r.editloc.isSome) then
    let inter : ℤ := editlocFieldSum (fun e => e.intersection) valid
    let gold : ℤ := editlocFieldSum (fun e => e.gold_size) valid
    let pred : ℤ := editlocFieldSum (fun e => e.pred_size) valid
    some (coverage_precision (pred : ℚ) (gold : ℚ) (inter : ℚ))
  else none

/-- C8 counterexample: the claim that the aggregated EditLoc *recall*
equals (sum of hits) / (sum of deleted-line counts) fails on the code.
For a single valid instance with `intersection = 1`, `pred_size = 2`
(deleted lines) and `gold_size = 5`, `aggregate_results` computes
`recall, prec = coverage_precision(pred, gold, inter)`, whose first
component is `inter / gold = 1/5`, not `inter / pred = 1/2`. -/
theorem C8_aggregate_editloc_counterexample :
    aggregate_editloc [⟨false, some ⟨1/2, 1/2, 1, 5, 2⟩⟩] = some (1/5, 1/2) ∧
    ¬((1 : ℚ)/5 = 1/2) := by
  constructor
  · unfold aggregate_editloc
    rw [if_neg (by decide), if_pos (by decide)]
    have h1 : editlocFieldSum (fun e => e.intersection)
        (([⟨false, some ⟨1/2, 1/2, 1, 5, 2⟩⟩] : List ResultRow).filter
          (fun r => !r.hasError)) = 1 := by decide
    have h2 : editlocFieldSum (fun e => e.gold_size)
        (([⟨false, some ⟨1/2, 1/2, 1, 5, 2⟩⟩] : List ResultRow).filter
          (fun r => !r.hasError)) = 5 := by decide
    have h3 : editlocFieldSum (fun e => e.pred_size)
        (([⟨false, some ⟨1/2, 1/2, 1, 5, 2⟩⟩] : List ResultRow).filter
          (fun r => !r.hasError)) = 2 := by decide
    dsimp only
    rw [h1, h2, h3]
    norm_num [coverage_precision]
  · norm_num

/-- C8 amended: for every result list with at least one valid row having an
`editloc` entry, the aggregated EditLoc metric is micro-averaged through
`coverage_precision(sum pred_size, sum gold_size, sum intersection)` over
the valid rows: the aggregate *precision* is (sum of hits) / (sum of
per-instance deleted-line counts), keeping the predicted-edit denominator
of the per-instance metric, but the aggregate *recall* divides by the
summed `gold_size` (the gold context line counts), so the per-instance
equality `recall = precision` does not survive aggregation. -/
theorem C8_aggregate_editloc (results : List ResultRow)
    (hvalid : results.filter (fun r => !r.hasError) ≠ [])
    (hsome : (results.filter (fun r => !r.hasError)).any (fun r => r.editloc.isSome)) :
    aggregate_editloc results =
      some
        ((if 0 < editlocFieldSum (fun e => e.gold_size)
              (results.filter (fun r => !r.hasError)) then
            (editlocFieldSum (fun e => e.intersection)
                (results.filter (fun r => !r.hasError)) : ℚ) /
              (editlocFieldSum (fun e => e.gold_size)
                (results.filter (fun r => !r.hasError)) : ℚ)
          else 1),
         (if 0 < editlocFieldSum (fun e => e.pred_size)
              (results.filter (fun r => !r.hasError)) then
            (editlocFieldSum (fun e => e.intersection)
                (results.filter (fun r => !r.hasError)) : ℚ) /
              (editlocFieldSum (fun e => e.pred_size)
                (results.filter (fun r => !r.hasError)) : ℚ)
          else 1)) := by
  unfold aggregate_editloc
  rw [if_neg hvalid, if_pos hsome]
  dsimp only [coverage_precision]
  simp only [gt_iff_lt, Int.cast_pos]

/-- C8 witness: the amended theorem applied to two concrete valid rows,
`(inter, gold, pred) = (1, 5, 2)` and `(2, 5, 2)`: aggregate recall is
`3/10` and aggregate precision is `3/4`. -/
theorem C8_aggregate_editloc_witness :
    aggregate_editloc [⟨false, some ⟨1/2, 1/2, 1, 5, 2⟩⟩, ⟨false, some ⟨1, 1, 2, 5, 2⟩⟩] =
      some (3/10, 3/4) := by
  rw [C8_aggregate_editloc _ (by decide) (by decide)]
  have h1 : editlocFieldSum (fun e => e.intersection)
      (([⟨false, some ⟨1/2, 1/2, 1, 5, 2⟩⟩, ⟨false, some ⟨1, 1, 2, 5, 2⟩⟩] :
        List ResultRow).filter (fun r => !r.hasError)) = 3 := by decide
  have h2 : editlocFieldSum (fun e => e.gold_size)
      (([⟨false, some ⟨1/2, 1/2, 1, 5, 2⟩⟩, ⟨false, some ⟨1, 1, 2, 5, 2⟩⟩] :
        List ResultRow).filter (fun r => !r.hasError)) = 10 := by decide
  have h3 : editlocFieldSum (fun e => e.pred_size)
      (([⟨false, some ⟨1/2, 1/2, 1, 5, 2⟩⟩, ⟨false, some ⟨1, 1, 2, 5, 2⟩⟩] :
        List ResultRow).filter (fun r => !r.hasError)) = 4 := by decide
  rw [h1, h2, h3]
  norm_num

theorem trajFold_line_zero
    (extract_from_names : List (String × List String) → Finset DefRec)
    (extract_in_spans : SpanMap → Finset DefRec)
    (line_to_byte : String → ℤ → ℤ → Option Ivl)
    (gold_files : Finset String) (gold_symbols : Finset DefRec) (gold_spans : SpanMap)
    (steps : List Step) (st : TrajState)
    (hst : ∀ s ∈ st.perStep, s.coverage.line = 0) :
    ∀ s ∈ (steps.foldl
        (trajStep extract_from_names extract_in_spans line_to_byte
          gold_files gold_symbols gold_spans []) st).perStep,
      s.coverage.line = 0 := by
  induction steps generalizing st with
  | nil => exact hst
  | cons a rest ih =>
    rw [List.foldl_cons]
    apply ih
    intro s hs
    simp only [trajStep, List.mem_append, List.mem_singleton] at hs
    rcases hs with hs | hs
    · exact hst s hs
    · subst hs
      simp

theorem trajFold_empty_gold
    (extract_from_names : List (String × List String) → Finset DefRec)
    (extract_in_spans : SpanMap → Finset DefRec)
    (line_to_byte : String → ℤ → ℤ → Option Ivl)
    (gold_lines : SpanMap) (steps : List Step) (st : TrajState)
    (hst : ∀ s ∈ st.perStep,
      s.coverage.file = 1 ∧ s.coverage.symbol = 1 ∧ s.coverage.span = 1) :
    ∀ s ∈ (steps.foldl
        (trajStep extract_from_names extract_in_spans line_to_byte
          ∅ ∅ [] gold_lines) st).perStep,
      s.coverage.file = 1 ∧ s.coverage.symbol = 1 ∧ s.coverage.span = 1 := by
  induction steps generalizing st with
  | nil => exact hst
  | cons a rest ih =>
    rw [List.foldl_cons]
    apply ih
    intro s hs
    simp only [trajStep, List.mem_append, List.mem_singleton] at hs
    rcases hs with hs | hs
    · exact hst s hs
    · subst hs
      simp [span_total_bytes]

/-- C10: the gold-empty convention is inverted at the line granularity.
`compute_granularity_metrics` returns line coverage = precision = `0.0`
whenever `pred_lines` or `gold_lines` is `None`, and
`compute_trajectory_metrics` reports per-step line coverage `0.0` for every
step when the gold line-span map is empty — whereas at the file, symbol and
span granularities an empty gold yields coverage `1.0`, both in the final
metrics and per step. -/
theorem C10_line_gold_convention :
    (∀ (pf : Finset String) (pd : Finset DefRec) (ps : SpanMap) (gf : Finset String)
      (gd : Finset DefRec) (gs : SpanMap) (pl gl : Option SpanMap),
      pl = none ∨ gl = none →
        (compute_granularity_metrics pf pd ps gf gd gs pl gl).line.coverage = 0 ∧
        (compute_granularity_metrics pf pd ps gf gd gs pl gl).line.precision = 0) ∧
    (∀ (extract_from_names : List (String × List String) → Finset DefRec)
      (extract_in_spans : SpanMap → Finset DefRec)
      (line_to_byte : String → ℤ → ℤ → Option Ivl)
      (steps : List Step) (gf : Finset String) (gsym : Finset DefRec) (gsp : SpanMap)
      (glo : Option SpanMap),
      glo.getD [] = [] →
      ∀ s ∈ (compute_trajectory_metrics extract_from_names extract_in_spans
          line_to_byte steps gf gsym gsp glo).steps,
        s.coverage.line = 0) ∧
    (∀ (pf : Finset String) (pd : Finset DefRec) (ps : SpanMap)
      (pl gl : Option SpanMap),
      (compute_granularity_metrics pf pd ps ∅ ∅ [] pl gl).file.coverage = 1 ∧
      (compute_granularity_metrics pf pd ps ∅ ∅ [] pl gl).symbol.coverage = 1 ∧
      (compute_granularity_metrics pf pd ps ∅ ∅ [] pl gl).span.coverage = 1) ∧
    (∀ (extract_from_names : List (String × List String) → Finset DefRec)
      (extract_in_spans : SpanMap → Finset DefRec)
      (line_to_byte : String → ℤ → ℤ → Option Ivl)
      (steps : List Step) (gl : SpanMap),
      ∀ s ∈ (compute_trajectory_metrics extract_from_names extract_in_spans
          line_to_byte steps ∅ ∅ [] (some gl)).steps,
        s.coverage.file = 1 ∧ s.coverage.symbol = 1 ∧ s.coverage.span = 1) := by
  refine ⟨?_, ?_, ?_, ?_⟩
  · intro pf pd ps gf gd gs pl gl h
    rcases h with h | h <;> subst h <;>
      [rcases gl with _ | gl; rcases pl with _ | pl] <;>
      simp [compute_granularity_metrics]
  · intro efn eis ltb steps gf gsym gsp glo hgl
    unfold compute_trajectory_metrics
    by_cases hlen : steps.length = 0
    · rw [if_pos hlen]
      intro s hs
      simp at hs
    · rw [if_neg hlen]
      dsimp only
      rw [hgl]
      exact trajFold_line_zero efn eis ltb gf gsym gsp steps trajInit (by simp [trajInit])
  · intro pf pd ps pl gl
    refine ⟨?_, ?_, ?_⟩ <;>
      · rcases pl with _ | pl <;> rcases gl with _ | gl <;>
          simp [compute_granularity_metrics, coverage_precision, span_total_bytes]
  · intro efn eis ltb steps gl
    unfold compute_trajectory_metrics
    by_cases hlen : steps.length = 0
    · rw [if_pos hlen]
      intro s hs
      simp at hs
    · rw [if_neg hlen]
      dsimp only
      exact trajFold_empty_gold efn eis ltb ((some gl).getD []) steps trajInit
        (by simp [trajInit])

/-- C10 witness: the theorem applied at concrete inputs — final line metrics
with `gold_lines = None` are zero, a one-step trajectory with an empty gold
line map has per-step line coverage `0` everywhere, and final file, symbol
and span coverage against an entirely empty gold are `1`. -/
theorem C10_line_gold_convention_witness :
    (compute_granularity_metrics {"f.py"} ∅ [] {"f.py"} ∅ []
        (some [("f.py", [(1, 3)])]) none).line.coverage = 0 ∧
    ((compute_trajectory_metrics (fun _ => ∅) (fun _ => ∅) (fun _ _ _ => none)
        [⟨["f.py"], [], []⟩] {"f.py"} ∅ [] none).steps.all
      (fun s => s.coverage.line = 0)) = true ∧
    (compute_granularity_metrics {"f.py"} ∅ [] ∅ ∅ [] none none).file.coverage = 1 := by
  refine ⟨(C10_line_gold_convention.1 _ _ _ _ _ _ _ _ (Or.inr rfl)).1, ?_,
    (C10_line_gold_convention.2.2.1 {"f.py"} ∅ [] none none).1⟩
  rw [List.all_eq_true]
  intro s hs
  have := C10_line_gold_convention.2.1 (fun _ => ∅) (fun _ => ∅) (fun _ _ _ => none)
    [⟨["f.py"], [], []⟩] {"f.py"} ∅ [] none rfl s hs
  simp [this]

/-- The symbol set of one step, as `compute_trajectory_metrics` computes it:
declared symbol names when present, otherwise definitions overlapping the
step's byte spans. -/
def stepSymbolsOf (extract_from_names : List (String × List String) → Finset DefRec)
    (extract_in_spans : SpanMap → Finset DefRec)
    (line_to_byte : String → ℤ → ℤ → Option Ivl) (s : Step) : Finset DefRec :=
  if s.symbols ≠ [] then extract_from_names s.symbols
  else extract_in_spans (_step_to_byte_spans line_to_byte s)

/-- Cumulative union of the files of a list of steps. -/
def cumFiles (steps : List Step) : Finset String :=
  steps.foldl (fun a s => a ∪ s.files.toFinset) ∅

/-- Cumulative union of the symbol sets of a list of steps. -/
def cumSymbols (extract_from_names : List (String × List String) → Finset DefRec)
    (extract_in_spans : SpanMap → Finset DefRec)
    (line_to_byte : String → ℤ → ℤ → Option Ivl) (steps : List Step) : Finset DefRec :=
  steps.foldl (fun a s =>
    a ∪ stepSymbolsOf extract_from_names extract_in_spans line_to_byte s) ∅

/-- Cumulative per-file merged byte spans of a list of steps. -/
def cumSpans (line_to_byte : String → ℤ → ℤ → Option Ivl) (steps : List Step) :
    SpanMap :=
  steps.foldl (fun a s =>
    alistMergeUnion Core.merge a (_step_to_byte_spans line_to_byte s)) []

/-- Cumulative per-file merged line intervals of a list of steps. -/
def cumLines (steps : List Step) : SpanMap :=
  steps.foldl (fun a s =>
    alistMergeUnion _merge_line_intervals a (_step_to_line_intervals s)) []

/-- Coverage of the cumulative union of the first `t` steps against the
gold representations, at each granularity, exactly as the trajectory loop
computes it at step `t`. -/
def cumCoverage (extract_from_names : List (String × List String) → Finset DefRec)
    (extract_in_spans : SpanMap → Finset DefRec)
    (line_to_byte : String → ℤ → ℤ → Option Ivl)
    (gold_files : Finset String) (gold_symbols : Finset DefRec) (gold_spans : SpanMap)
    (gold_lines : SpanMap) (steps : List Step) (t : ℕ) : GranQ :=
  ⟨if gold_files = ∅ then 1
    else ((cumFiles (steps.take t) ∩ gold_files).card : ℚ) / (gold_files.card : ℚ),
   if gold_symbols = ∅ then 1
    else ((cumSymbols extract_from_names extract_in_spans line_to_byte (steps.take t) ∩
        gold_symbols).card : ℚ) / (gold_symbols.card : ℚ),
   if 0 < span_total_bytes gold_spans then
      (span_intersection_bytes (cumSpans line_to_byte (steps.take t)) gold_spans : ℚ) /
        (span_total_bytes gold_spans : ℚ)
    else 1,
   if gold_lines = [] then 0
    else
      if 0 < line_total_lines gold_lines then
        (line_intersection_lines (cumLines (steps.take t)) gold_lines : ℚ) /
          (line_total_lines gold_lines : ℚ)
      else 1⟩

/-- The loop state of `compute_trajectory_metrics` after processing a list
of steps, expressed directly in terms of that list. -/
def stateOf (extract_from_names : List (String × List String) → Finset DefRec)
    (extract_in_spans : SpanMap → Finset DefRec)
    (line_to_byte : String → ℤ → ℤ → Option Ivl)
    (gold_files : Finset String) (gold_symbols : Finset DefRec) (gold_spans : SpanMap)
    (gold_lines : SpanMap) (processed : List Step) : TrajState :=
  ⟨cumFiles processed,
   cumSymbols extract_from_names extract_in_spans line_to_byte processed,
   cumSpans line_to_byte processed,
   cumLines processed,
   (processed.map (fun s => s.files.toFinset.card)).sum,
   (processed.map (fun s =>
     (stepSymbolsOf extract_from_names extract_in_spans line_to_byte s).card)).sum,
   (processed.map (fun s => span_total_bytes (_step_to_byte_spans line_to_byte s))).sum,
   (processed.map (fun s => line_total_lines (_step_to_line_intervals s))).sum,
   (List.range processed.length).map (fun t =>
     ⟨t + 1, cumCoverage extract_from_names extract_in_spans line_to_byte
       gold_files gold_symbols gold_spans gold_lines processed (t + 1)⟩)⟩

theorem stepSymbolsOf_eq
    (extract_from_names : List (String × List String) → Finset DefRec)
    (extract_in_spans : SpanMap → Finset DefRec)
    (line_to_byte : String → ℤ → ℤ → Option Ivl) (s : Step) :
    stepSymbolsOf extract_from_names extract_in_spans line_to_byte s =
      if s.symbols = [] then extract_in_spans (_step_to_byte_spans line_to_byte s)
      else extract_from_names s.symbols := by
  unfold stepSymbolsOf
  by_cases h : s.symbols = [] <;> simp [h]

theorem trajStep_stateOf
    (extract_from_names : List (String × List String) → Finset DefRec)
    (extract_in_spans : SpanMap → Finset DefRec)
    (line_to_byte : String → ℤ → ℤ → Option Ivl)
    (gold_files : Finset String) (gold_symbols : Finset DefRec) (gold_spans : SpanMap)
    (gold_lines : SpanMap) (processed : List Step) (s : Step) :
    trajStep extract_from_names extract_in_spans line_to_byte
        gold_files gold_symbols gold_spans gold_lines
        (stateOf extract_from_names extract_in_spans line_to_byte
          gold_files gold_symbols gold_spans gold_lines processed) s =
      stateOf extract_from_names extract_in_spans line_to_byte
        gold_files gold_symbols gold_spans gold_lines (processed ++ [s]) := by
  have hf : cumFiles (processed ++ [s]) = cumFiles processed ∪ s.files.toFinset := by
    unfold cumFiles
    rw [List.foldl_append]
    rfl
  have hsym : cumSymbols extract_from_names extract_in_spans line_to_byte (processed ++ [s]) =
      cumSymbols extract_from_names extract_in_spans line_to_byte processed ∪
        stepSymbolsOf extract_from_names extract_in_spans line_to_byte s := by
    unfold cumSymbols
    rw [List.foldl_append]
    rfl
  have hsp : cumSpans line_to_byte (processed ++ [s]) =
      alistMergeUnion Core.merge (cumSpans line_to_byte processed)
        (_step_to_byte_spans line_to_byte s) := by
    unfold cumSpans
    rw [List.foldl_append]
    rfl
  have hl : cumLines (processed ++ [s]) =
      alistMergeUnion _merge_line_intervals (cumLines processed)
        (_step_to_line_intervals s) := by
    unfold cumLines
    rw [List.foldl_append]
    rfl
  unfold trajStep stateOf
  dsimp only
  congr 1
  · exact hf.symm
  · rw [hsym]
    rfl
  · exact hsp.symm
  · exact hl.symm
  · rw [List.map_append, List.sum_append]
    simp [stepSymbolsOf_eq]
  · rw [List.map_append, List.sum_append]
    simp [stepSymbolsOf_eq]
  · rw [List.map_append, List.sum_append]
    simp
  · rw [List.map_append, List.sum_append]
    simp
  · rw [List.length_append, List.length_singleton, List.range_succ, List.map_append]
    congr 1
    · apply List.map_congr_left
      intro t ht
      rw [List.mem_range] at ht
      have htake : (processed ++ [s]).take (t + 1) = processed.take (t + 1) :=
        List.take_append_of_le_length (by omega)
      unfold cumCoverage
      rw [htake]
    · have htake : (processed ++ [s]).take (processed.length + 1) = processed ++ [s] :=
        List.take_of_length_le (by simp)
      unfold cumCoverage
      simp only [List.map_cons, List.map_nil]
      rw [htake, hf, hsym, hsp, hl]
      simp only [List.length_map, List.length_range]
      rfl

theorem trajFold_stateOf
    (extract_from_names : List (String × List String) → Finset DefRec)
    (extract_in_spans : SpanMap → Finset DefRec)
    (line_to_byte : String → ℤ → ℤ → Option Ivl)
    (gold_files : Finset String) (gold_symbols : Finset DefRec) (gold_spans : SpanMap)
    (gold_lines : SpanMap) (rest processed : List Step) :
    rest.foldl
        (trajStep extract_from_names extract_in_spans line_to_byte
          gold_files gold_symbols gold_spans gold_lines)
        (stateOf extract_from_names extract_in_spans line_to_byte
          gold_files gold_symbols gold_spans gold_lines processed) =
      stateOf extract_from_names extract_in_spans line_to_byte
        gold_files gold_symbols gold_spans gold_lines (processed ++ rest) := by
  induction rest generalizing processed with
  | nil => simp
  | cons a l ih =>
    rw [List.foldl_cons, trajStep_stateOf, ih]
    congr 1
    simp

theorem stateOf_nil
    (extract_from_names : List (String × List String) → Finset DefRec)
    (extract_in_spans : SpanMap → Finset DefRec)
    (line_to_byte : String → ℤ → ℤ → Option Ivl)
    (gold_files : Finset String) (gold_symbols : Finset DefRec) (gold_spans : SpanMap)
    (gold_lines : SpanMap) :
    stateOf extract_from_names extract_in_spans line_to_byte
      gold_files gold_symbols gold_spans gold_lines [] = trajInit :=
  rfl

/-- C3: the per-step coverage at step `t` of `compute_trajectory_metrics` is
the coverage of the cumulative union of steps `1..t` against gold
(`cumCoverage`), the AUC at each granularity is the arithmetic mean of the
`T` per-step coverages, a zero-step trajectory reports the explicit
zero result (AUC `0.0` at every granularity, not the gold-empty value
`1.0`), and a single-step trajectory whose step covers 100% of gold has
AUC `1.0` at every granularity. -/
theorem C3_auc_coverage
    (extract_from_names : List (String × List String) → Finset DefRec)
    (extract_in_spans : SpanMap → Finset DefRec)
    (line_to_byte : String → ℤ → ℤ → Option Ivl)
    (steps : List Step) (gold_files : Finset String) (gold_symbols : Finset DefRec)
    (gold_spans : SpanMap) (gold_lines_opt : Option SpanMap) :
    (compute_trajectory_metrics extract_from_names extract_in_spans line_to_byte
        [] gold_files gold_symbols gold_spans gold_lines_opt =
      ⟨[], ⟨0, 0, 0, 0⟩, ⟨0, 0, 0, 0⟩⟩) ∧
    ((compute_trajectory_metrics extract_from_names extract_in_spans line_to_byte
        steps gold_files gold_symbols gold_spans gold_lines_opt).steps =
      (List.range steps.length).map (fun t =>
        ⟨t + 1, cumCoverage extract_from_names extract_in_spans line_to_byte
          gold_files gold_symbols gold_spans (gold_lines_opt.getD []) steps (t + 1)⟩)) ∧
    (steps ≠ [] →
      (compute_trajectory_metrics extract_from_names extract_in_spans line_to_byte
          steps gold_files gold_symbols gold_spans gold_lines_opt).auc_coverage =
        ⟨((List.range steps.length).map (fun t =>
            (cumCoverage extract_from_names extract_in_spans line_to_byte
              gold_files gold_symbols gold_spans (gold_lines_opt.getD [])
              steps (t + 1)).file)).sum / (steps.length : ℚ),
         ((List.range steps.length).map (fun t =>
            (cumCoverage extract_from_names extract_in_spans line_to_byte
              gold_files gold_symbols gold_spans (gold_lines_opt.getD [])
              steps (t + 1)).symbol)).sum / (steps.length : ℚ),
         ((List.range steps.length).map (fun t =>
            (cumCoverage extract_from_names extract_in_spans line_to_byte
              gold_files gold_symbols gold_spans (gold_lines_opt.getD [])
              steps (t + 1)).span)).sum / (steps.length : ℚ),
         ((List.range steps.length).map (fun t =>
            (cumCoverage extract_from_names extract_in_spans line_to_byte
              gold_files gold_symbols gold_spans (gold_lines_opt.getD [])
              steps (t + 1)).line)).sum / (steps.length : ℚ)⟩) ∧
    (∀ s1 : Step, steps = [s1] →
      cumCoverage extract_from_names extract_in_spans line_to_byte
        gold_files gold_symbols gold_spans (gold_lines_opt.getD []) steps 1 =
        ⟨1, 1, 1, 1⟩ →
      (compute_trajectory_metrics extract_from_names extract_in_spans line_to_byte
          steps gold_files gold_symbols gold_spans gold_lines_opt).auc_coverage =
        ⟨1, 1, 1, 1⟩) := by
  have hsteps : ∀ st : List Step,
      (compute_trajectory_metrics extract_from_names extract_in_spans line_to_byte
        st gold_files gold_symbols gold_spans gold_lines_opt).steps =
      (List.range st.length).map (fun t =>
        ⟨t + 1, cumCoverage extract_from_names extract_in_spans line_to_byte
          gold_files gold_symbols gold_spans (gold_lines_opt.getD []) st (t + 1)⟩) := by
    intro st
    unfold compute_trajectory_metrics
    by_cases h : st.length = 0
    · rw [if_pos h]
      rw [List.length_eq_zero] at h
      subst h
      rfl
    · rw [if_neg h]
      dsimp only
      rw [← stateOf_nil extract_from_names extract_in_spans line_to_byte
        gold_files gold_symbols gold_spans (gold_lines_opt.getD []),
        trajFold_stateOf, List.nil_append]
      rfl
  have hauc : steps ≠ [] →
      (compute_trajectory_metrics extract_from_names extract_in_spans line_to_byte
          steps gold_files gold_symbols gold_spans gold_lines_opt).auc_coverage =
        ⟨((List.range steps.length).map (fun t =>
            (cumCoverage extract_from_names extract_in_spans line_to_byte
              gold_files gold_symbols gold_spans (gold_lines_opt.getD [])
              steps (t + 1)).file)).sum / (steps.length : ℚ),
         ((List.range steps.length).map (fun t =>
            (cumCoverage extract_from_names extract_in_spans line_to_byte
              gold_files gold_symbols gold_spans (gold_lines_opt.getD [])
              steps (t + 1)).symbol)).sum / (steps.length : ℚ),
         ((List.range steps.length).map (fun t =>
            (cumCoverage extract_from_names extract_in_spans line_to_byte
              gold_files gold_symbols gold_spans (gold_lines_opt.getD [])
              steps (t + 1)).span)).sum / (steps.length : ℚ),
         ((List.range steps.length).map (fun t =>
            (cumCoverage extract_from_names extract_in_spans line_to_byte
              gold_files gold_symbols gold_spans (gold_lines_opt.getD [])
              steps (t + 1)).line)).sum / (steps.length : ℚ)⟩ := by
    intro hne
    unfold compute_trajectory_metrics
    rw [if_neg (by simpa using hne)]
    dsimp only
    rw [← stateOf_nil extract_from_names extract_in_spans line_to_byte
      gold_files gold_symbols gold_spans (gold_lines_opt.getD []),
      trajFold_stateOf, List.nil_append]
    unfold stateOf
    dsimp only
    rw [List.map_map, List.map_map, List.map_map, List.map_map]
    rfl
  refine ⟨?_, hsteps steps, hauc, ?_⟩
  · unfold compute_trajectory_metrics
    simp
  · intro s1 h1 hcov
    subst h1
    rw [hauc (by simp)]
    simp [List.range_succ, hcov]

/-- C3 witness: the theorem applied to a concrete single-step trajectory
covering 100% of the gold files and gold lines (symbol and span gold empty):
AUC is `1.0` at every granularity; and applied to the concrete zero-step
trajectory: the result is the explicit zero record. -/
theorem C3_auc_coverage_witness :
    (compute_trajectory_metrics (fun _ => ∅) (fun _ => ∅) (fun _ _ _ => none)
        [⟨["f.py"], [⟨"f.py", 10, 20⟩], []⟩] {"f.py"} ∅ []
        (some [("f.py", [(10, 20)])])).auc_coverage = ⟨1, 1, 1, 1⟩ ∧
    compute_trajectory_metrics (fun _ => ∅) (fun _ => ∅) (fun _ _ _ => none)
        [] {"f.py"} ∅ [] (some [("f.py", [(10, 20)])]) =
      ⟨[], ⟨0, 0, 0, 0⟩, ⟨0, 0, 0, 0⟩⟩ := by
  have hc : cumCoverage (fun _ => ∅) (fun _ => ∅) (fun _ _ _ => none)
      {"f.py"} ∅ [] [("f.py", [(10, 20)])]
      [⟨["f.py"], [⟨"f.py", 10, 20⟩], []⟩] 1 = ⟨1, 1, 1, 1⟩ := by
    unfold cumCoverage
    have h1 : (cumFiles (List.take 1 [(⟨["f.py"], [⟨"f.py", 10, 20⟩], []⟩ : Step)]) ∩
        ({"f.py"} : Finset String)).card = 1 := by decide
    have h3 : line_total_lines [("f.py", [(10, 20)])] = 11 := by decide
    have h4 : line_intersection_lines
        (cumLines (List.take 1 [(⟨["f.py"], [⟨"f.py", 10, 20⟩], []⟩ : Step)]))
        [("f.py", [(10, 20)])] = 11 := by decide
    rw [if_neg (show ¬({"f.py"} : Finset String) = ∅ by decide), if_pos rfl,
      if_neg (show ¬(0 < span_total_bytes []) by decide),
      if_neg (show ¬([("f.py", [(10, 20)])] : SpanMap) = [] by decide),
      h1, h3, h4, if_pos (by norm_num)]
    have h2 : ({"f.py"} : Finset String).card = 1 := by decide
    rw [h2]
    norm_num
  exact ⟨(C3_auc_coverage (fun _ => ∅) (fun _ => ∅) (fun _ _ _ => none)
      [⟨["f.py"], [⟨"f.py", 10, 20⟩], []⟩] {"f.py"} ∅ []
      (some [("f.py", [(10, 20)])])).2.2.2 ⟨["f.py"], [⟨"f.py", 10, 20⟩], []⟩ rfl hc,
    (C3_auc_coverage (fun _ => ∅) (fun _ => ∅) (fun _ _ _ => none)
      [] {"f.py"} ∅ [] (some [("f.py", [(10, 20)])])).1⟩

theorem alistGet_cons {α : Type} (k2 k : String) (v : List α)
    (m : List (String × List α)) :
    alistGet ((k2, v) :: m) k = if k = k2 then v else alistGet m k := by
  unfold alistGet
  rw [List.lookup]
  by_cases h : k = k2
  · rw [if_pos h]
    simp [h]
  · rw [if_neg h]
    simp [beq_eq_false_iff_ne.mpr h]

theorem alistGet_alistSet {α : Type} (m : List (String × List α)) (k : String)
    (v : List α) (f : String) :
    alistGet (alistSet m k v) f = if f = k then v else alistGet m f := by
  induction m with
  | nil =>
    unfold alistSet
    rw [alistGet_cons]
  | cons e rest ih =>
    rcases e with ⟨k2, v2⟩
    unfold alistSet
    by_cases h : k2 = k
    · rw [if_pos h]
      subst h
      rw [alistGet_cons, alistGet_cons]
      by_cases hf : f = k2 <;> simp [hf]
    · rw [if_neg h]
      rw [alistGet_cons, alistGet_cons, ih]
      by_cases hf : f = k2
      · subst hf
        rw [if_pos rfl, if_pos rfl, if_neg h]
      · rw [if_neg hf, if_neg hf]

theorem covers_mergeUnion {mergeF : List Ivl → List Ivl}
    (hmerge : ∀ l x, covers (mergeF l) x ↔ covers l x) :
    ∀ (upd : SpanMap) (m : SpanMap) (f : String) (x : ℤ),
      covers (alistGet (alistMergeUnion mergeF m upd) f) x ↔
        (covers (alistGet m f) x ∨ ∃ e ∈ upd, e.1 = f ∧ covers e.2 x) := by
  intro upd
  induction upd with
  | nil =>
    intro m f x
    simp [alistMergeUnion]
  | cons e rest ih =>
    intro m f x
    unfold alistMergeUnion
    rw [List.foldl_cons]
    have hrest := ih (alistSet m e.1 (mergeF (alistGet m e.1 ++ e.2))) f x
    unfold alistMergeUnion at hrest
    rw [hrest, alistGet_alistSet]
    by_cases hf : f = e.1
    · rw [if_pos hf, hmerge, covers_append]
      subst hf
      simp only [List.mem_cons]
      constructor
      · rintro ((h | h) | ⟨e2, he2, h1, h2⟩)
        · exact Or.inl h
        · exact Or.inr ⟨e, Or.inl rfl, rfl, h⟩
        · exact Or.inr ⟨e2, Or.inr he2, h1, h2⟩
      · rintro (h | ⟨e2, (he2 | he2), h1, h2⟩)
        · exact Or.inl (Or.inl h)
        · subst he2
          exact Or.inl (Or.inr h2)
        · exact Or.inr ⟨e2, he2, h1, h2⟩
    · rw [if_neg hf]
      simp only [List.mem_cons]
      constructor
      · rintro (h | ⟨e2, he2, h1, h2⟩)
        · exact Or.inl h
        · exact Or.inr ⟨e2, Or.inr he2, h1, h2⟩
      · rintro (h | ⟨e2, (he2 | he2), h1, h2⟩)
        · exact Or.inl h
        · subst he2
          exact absurd h1.symm hf
        · exact Or.inr ⟨e2, he2, h1, h2⟩

theorem covers_cumFold (mergeF : List Ivl → List Ivl)
    (hmerge : ∀ l x, covers (mergeF l) x ↔ covers l x)
    (stepMap : Step → SpanMap) :
    ∀ (steps : List Step) (m : SpanMap) (f : String) (x : ℤ),
      covers (alistGet (steps.foldl (fun a s => alistMergeUnion mergeF a (stepMap s)) m) f) x ↔
        (covers (alistGet m f) x ∨
          ∃ s ∈ steps, ∃ e ∈ stepMap s, e.1 = f ∧ covers e.2 x) := by
  intro steps
  induction steps with
  | nil =>
    intro m f x
    simp
  | cons s rest ih =>
    intro m f x
    rw [List.foldl_cons, ih, covers_mergeUnion hmerge]
    simp only [List.mem_cons]
    constructor
    · rintro ((h | h) | ⟨s2, hs2, h2⟩)
      · exact Or.inl h
      · exact Or.inr ⟨s, Or.inl rfl, h⟩
      · exact Or.inr ⟨s2, Or.inr hs2, h2⟩
    · rintro (h | ⟨s2, (hs2 | hs2), h2⟩)
      · exact Or.inl (Or.inl h)
      · subst hs2
        exact Or.inl (Or.inr h2)
      · exact Or.inr ⟨s2, hs2, h2⟩

theorem mem_cumFiles (steps : List Step) (x : String) :
    x ∈ cumFiles steps ↔ ∃ s ∈ steps, x ∈ s.files := by
  have haux : ∀ (l : List Step) (a : Finset String),
      (x ∈ l.foldl (fun a s => a ∪ s.files.toFinset) a ↔
        x ∈ a ∨ ∃ s ∈ l, x ∈ s.files) := by
    intro l
    induction l with
    | nil => intro a; simp
    | cons s rest ih =>
      intro a
      rw [List.foldl_cons, ih]
      simp only [Finset.mem_union, List.mem_toFinset, List.mem_cons]
      constructor
      · rintro ((h | h) | ⟨s2, hs2, h2⟩)
        · exact Or.inl h
        · exact Or.inr ⟨s, Or.inl rfl, h⟩
        · exact Or.inr ⟨s2, Or.inr hs2, h2⟩
      · rintro (h | ⟨s2, (hs2 | hs2), h2⟩)
        · exact Or.inl (Or.inl h)
        · subst hs2
          exact Or.inl (Or.inr h2)
        · exact Or.inr ⟨s2, hs2, h2⟩
  rw [cumFiles, haux]
  simp

theorem mem_cumSymbols
    (extract_from_names : List (String × List String) → Finset DefRec)
    (extract_in_spans : SpanMap → Finset DefRec)
    (line_to_byte : String → ℤ → ℤ → Option Ivl)
    (steps : List Step) (y : DefRec) :
    y ∈ cumSymbols extract_from_names extract_in_spans line_to_byte steps ↔
      ∃ s ∈ steps,
        y ∈ stepSymbolsOf extract_from_names extract_in_spans line_to_byte s := by
  have haux : ∀ (l : List Step) (a : Finset DefRec),
      (y ∈ l.foldl (fun a s =>
          a ∪ stepSymbolsOf extract_from_names extract_in_spans line_to_byte s) a ↔
        y ∈ a ∨ ∃ s ∈ l,
          y ∈ stepSymbolsOf extract_from_names extract_in_spans line_to_byte s) := by
    intro l
    induction l with
    | nil => intro a; simp
    | cons s rest ih =>
      intro a
      rw [List.foldl_cons, ih]
      simp only [Finset.mem_union, List.mem_cons]
      constructor
      · rintro ((h | h) | ⟨s2, hs2, h2⟩)
        · exact Or.inl h
        · exact Or.inr ⟨s, Or.inl rfl, h⟩
        · exact Or.inr ⟨s2, Or.inr hs2, h2⟩
      · rintro (h | ⟨s2, (hs2 | hs2), h2⟩)
        · exact Or.inl (Or.inl h)
        · subst hs2
          exact Or.inl (Or.inr h2)
        · exact Or.inr ⟨s2, hs2, h2⟩
  rw [cumSymbols, haux]
  simp

theorem merge_line_covers (l : List Ivl) (x : ℤ) :
    covers (_merge_line_intervals l) x ↔ covers l x :=
  mergeAdj_covers (by norm_num) l x

theorem core_merge_covers (l : List Ivl) (x : ℤ) :
    covers (Core.merge l) x ↔ covers l x :=
  mergeAdj_covers (by norm_num) l x

theorem covers_cumLines (steps : List Step) (f : String) (x : ℤ) :
    covers (alistGet (cumLines steps) f) x ↔
      ∃ s ∈ steps, ∃ e ∈ _step_to_line_intervals s, e.1 = f ∧ covers e.2 x := by
  rw [cumLines, covers_cumFold _merge_line_intervals merge_line_covers
    _step_to_line_intervals]
  have h0 : ¬ covers (alistGet ([] : SpanMap) f) x := covers_nil x
  tauto

theorem covers_cumSpans (line_to_byte : String → ℤ → ℤ → Option Ivl)
    (steps : List Step) (f : String) (x : ℤ) :
    covers (alistGet (cumSpans line_to_byte steps) f) x ↔
      ∃ s ∈ steps, ∃ e ∈ _step_to_byte_spans line_to_byte s, e.1 = f ∧ covers e.2 x := by
  rw [cumSpans, covers_cumFold Core.merge core_merge_covers
    (_step_to_byte_spans line_to_byte)]
  have h0 : ¬ covers (alistGet ([] : SpanMap) f) x := covers_nil x
  tauto

theorem traj_redundancy_eq
    (extract_from_names : List (String × List String) → Finset DefRec)
    (extract_in_spans : SpanMap → Finset DefRec)
    (line_to_byte : String → ℤ → ℤ → Option Ivl)
    (steps : List Step) (gold_files : Finset String) (gold_symbols : Finset DefRec)
    (gold_spans : SpanMap) (gold_lines_opt : Option SpanMap) :
    (compute_trajectory_metrics extract_from_names extract_in_spans line_to_byte
        steps gold_files gold_symbols gold_spans gold_lines_opt).redundancy =
      ⟨if 0 < (steps.map (fun s => s.files.toFinset.card)).sum then
          1 - ((cumFiles steps).card : ℚ) /
            (((steps.map (fun s => s.files.toFinset.card)).sum : ℕ) : ℚ)
        else 0,
       if 0 < (steps.map (fun s =>
            (stepSymbolsOf extract_from_names extract_in_spans line_to_byte s).card)).sum then
          1 - ((cumSymbols extract_from_names extract_in_spans line_to_byte steps).card : ℚ) /
            (((steps.map (fun s =>
              (stepSymbolsOf extract_from_names extract_in_spans line_to_byte s).card)).sum : ℕ) : ℚ)
        else 0,
       if 0 < (steps.map (fun s =>
            span_total_bytes (_step_to_byte_spans line_to_byte s))).sum then
          1 - (span_total_bytes (cumSpans line_to_byte steps) : ℚ) /
            (((steps.map (fun s =>
              span_total_bytes (_step_to_byte_spans line_to_byte s))).sum : ℤ) : ℚ)
        else 0,
       if 0 < (steps.map (fun s => line_total_lines (_step_to_line_intervals s))).sum then
          1 - (line_total_lines (cumLines steps) : ℚ) /
            (((steps.map (fun s =>
              line_total_lines (_step_to_line_intervals s))).sum : ℤ) : ℚ)
        else 0⟩ := by
  unfold compute_trajectory_metrics
  by_cases h : steps.length = 0
  · rw [if_pos h]
    rw [List.length_eq_zero] at h
    subst h
    simp [cumFiles, cumSymbols, cumSpans, cumLines]
  · rw [if_neg h]
    dsimp only
    rw [← stateOf_nil extract_from_names extract_in_spans line_to_byte
      gold_files gold_symbols gold_spans (gold_lines_opt.getD []),
      trajFold_stateOf, List.nil_append]
    rfl

/-- C4: at every granularity the trajectory Redundancy equals
`1 - (size of the union of all steps) / (sum of per-step sizes)` and is
`0.0` when the summed per-step size is zero (in particular for an empty
trajectory); the cumulative maps are genuinely the unions of the per-step
observations (membership and covered-line characterizations); and for three
steps each re-reading the same 50-line range the line Redundancy is
`1 - 50/150 = 2/3`. -/
theorem C4_redundancy
    (extract_from_names : List (String × List String) → Finset DefRec)
    (extract_in_spans : SpanMap → Finset DefRec)
    (line_to_byte : String → ℤ → ℤ → Option Ivl)
    (steps : List Step) (gold_files : Finset String) (gold_symbols : Finset DefRec)
    (gold_spans : SpanMap) (gold_lines_opt : Option SpanMap) :
    ((compute_trajectory_metrics extract_from_names extract_in_spans line_to_byte
        steps gold_files gold_symbols gold_spans gold_lines_opt).redundancy =
      ⟨if 0 < (steps.map (fun s => s.files.toFinset.card)).sum then
          1 - ((cumFiles steps).card : ℚ) /
            (((steps.map (fun s => s.files.toFinset.card)).sum : ℕ) : ℚ)
        else 0,
       if 0 < (steps.map (fun s =>
            (stepSymbolsOf extract_from_names extract_in_spans line_to_byte s).card)).sum then
          1 - ((cumSymbols extract_from_names extract_in_spans line_to_byte steps).card : ℚ) /
            (((steps.map (fun s =>
              (stepSymbolsOf extract_from_names extract_in_spans line_to_byte s).card)).sum : ℕ) : ℚ)
        else 0,
       if 0 < (steps.map (fun s =>
            span_total_bytes (_step_to_byte_spans line_to_byte s))).sum then
          1 - (span_total_bytes (cumSpans line_to_byte steps) : ℚ) /
            (((steps.map (fun s =>
              span_total_bytes (_step_to_byte_spans line_to_byte s))).sum : ℤ) : ℚ)
        else 0,
       if 0 < (steps.map (fun s => line_total_lines (_step_to_line_intervals s))).sum then
          1 - (line_total_lines (cumLines steps) : ℚ) /
            (((steps.map (fun s =>
              line_total_lines (_step_to_line_intervals s))).sum : ℤ) : ℚ)
        else 0⟩) ∧
    (∀ x, x ∈ cumFiles steps ↔ ∃ s ∈ steps, x ∈ s.files) ∧
    (∀ y, y ∈ cumSymbols extract_from_names extract_in_spans line_to_byte steps ↔
      ∃ s ∈ steps,
        y ∈ stepSymbolsOf extract_from_names extract_in_spans line_to_byte s) ∧
    (∀ (f : String) (x : ℤ),
      covers (alistGet (cumSpans line_to_byte steps) f) x ↔
        ∃ s ∈ steps, ∃ e ∈ _step_to_byte_spans line_to_byte s, e.1 = f ∧ covers e.2 x) ∧
    (∀ (f : String) (x : ℤ),
      covers (alistGet (cumLines steps) f) x ↔
        ∃ s ∈ steps, ∃ e ∈ _step_to_line_intervals s, e.1 = f ∧ covers e.2 x) ∧
    (compute_trajectory_metrics (fun _ => ∅) (fun _ => ∅) (fun _ _ _ => none)
        [⟨[], [⟨"f.py", 1, 50⟩], []⟩, ⟨[], [⟨"f.py", 1, 50⟩], []⟩,
          ⟨[], [⟨"f.py", 1, 50⟩], []⟩]
        ∅ ∅ [] (some [("f.py", [(10, 20)])])).redundancy.line = 2/3 := by
  refine ⟨traj_redundancy_eq extract_from_names extract_in_spans line_to_byte
      steps gold_files gold_symbols gold_spans gold_lines_opt,
    mem_cumFiles steps,
    mem_cumSymbols extract_from_names extract_in_spans line_to_byte steps,
    covers_cumSpans line_to_byte steps,
    covers_cumLines steps, ?_⟩
  rw [traj_redundancy_eq]
  have h1 : (([⟨[], [⟨"f.py", 1, 50⟩], []⟩, ⟨[], [⟨"f.py", 1, 50⟩], []⟩,
      ⟨[], [⟨"f.py", 1, 50⟩], []⟩] : List Step).map
      (fun s => line_total_lines (_step_to_line_intervals s))).sum = 150 := by decide
  have h2 : line_total_lines (cumLines
      [⟨[], [⟨"f.py", 1, 50⟩], []⟩, ⟨[], [⟨"f.py", 1, 50⟩], []⟩,
        ⟨[], [⟨"f.py", 1, 50⟩], []⟩]) = 50 := by decide
  dsimp only
  rw [h1, h2]
  norm_num
